import Mathlib

/-!
# Verification of the Answer Evaluation System's scoring and OCR services

A shallow embedding of `src/api/services/scoring_service.py` and
`src/api/services/ocr_service.py`.  Python strings are modelled as `List Char`,
Python floats as `ℚ` (exact rational arithmetic), Python dicts that preserve
insertion order as association lists, and `re` substitutions as explicit
recursive scans whose semantics were derived pattern-by-pattern from the
fixed regexes occurring in the source.  Character classes (`\s`, `\w`,
`str.isalpha`, `str.lower`) are modelled at the ASCII level.
-/

set_option maxRecDepth 4000

namespace AssessIQ

/-- Strings are modelled as lists of characters. -/
abbrev Str := List Char

/-- Convert a Lean string literal to the `List Char` model. -/
def str (s : String) : Str := s.data

/-- Python `str.lower` on one character (ASCII case mapping). -/
def pyToLower (c : Char) : Char :=
  if 'A' ≤ c ∧ c ≤ 'Z' then Char.ofNat (c.toNat + 32) else c

/-- Python `str.lower` (ASCII level). -/
def lowerStr (s : Str) : Str := s.map pyToLower

/-- Python whitespace as matched by `\s` and stripped by `str.strip`
(ASCII whitespace: space, tab, newline, carriage return, vertical tab,
form feed). -/
def isPySpace (c : Char) : Bool :=
  c = ' ' || c = '\t' || c = '\n' || c = '\x0d' || c = '\x0b' || c = '\x0c'

/-- Python `str.strip()`: drop leading and trailing whitespace. -/
def pyStrip (s : Str) : Str :=
  ((s.dropWhile isPySpace).reverse.dropWhile isPySpace).reverse

/-- ASCII alphanumeric, the class `[a-zA-Z0-9]`. -/
def isAsciiAlnum (c : Char) : Bool :=
  ('a' ≤ c ∧ c ≤ 'z') || ('A' ≤ c ∧ c ≤ 'Z') || ('0' ≤ c ∧ c ≤ '9')

/-- ASCII letter, as counted by `str.isalpha` (ASCII level). -/
def isAsciiAlpha (c : Char) : Bool :=
  ('a' ≤ c ∧ c ≤ 'z') || ('A' ≤ c ∧ c ≤ 'Z')

/-- Accumulator-based worker for `pySplit`: `cur` holds the (reversed)
current token. -/
def pySplitGo (cur : Str) : Str → List Str
  | [] => if cur = [] then [] else [cur.reverse]
  | c :: t =>
    if isPySpace c then
      if cur = [] then pySplitGo [] t else cur.reverse :: pySplitGo [] t
    else pySplitGo (c :: cur) t

/-- Python `str.split()` with no arguments: split on whitespace runs,
producing no empty tokens. -/
def pySplit (s : Str) : List Str := pySplitGo [] s

/-- Python list membership `x in l` for strings. -/
def isPre : Str → Str → Bool
  | [], _ => true
  | _ :: _, [] => false
  | a :: as_, b :: bs => a == b && isPre as_ bs

/-- Python substring test `needle in hay`.  The empty string is a substring
of everything, exactly as in Python. -/
def containsSub (needle hay : Str) : Bool :=
  hay.tails.any (fun t => isPre needle t)

namespace ScoringService

/-- `class QuestionType(Enum)` of `scoring_service.py`. -/
inductive QuestionType
  | factual
  | descriptive
  | diagram
  | mixed
deriving DecidableEq, Repr

/-- One weight triple of the `DEFAULT_WEIGHTS` table. -/
structure Weights where
  semantic : ℚ
  keyword : ℚ
  diagram : ℚ
deriving DecidableEq, Repr

/-- `ScoringService.DEFAULT_WEIGHTS`: the per-question-type weight table. -/
def DEFAULT_WEIGHTS : QuestionType → Weights
  | .factual => ⟨4/10, 5/10, 1/10⟩
  | .descriptive => ⟨7/10, 2/10, 1/10⟩
  | .diagram => ⟨3/10, 2/10, 5/10⟩
  | .mixed => ⟨5/10, 25/100, 25/100⟩

/-- `ScoringService.get_weights`.  The Python code uses
`DEFAULT_WEIGHTS.get(question_type, DEFAULT_WEIGHTS[QuestionType.MIXED])`;
every `QuestionType` value is a key of the table, so the `.get` default is
never used and the lookup is total. -/
def get_weights (question_type : QuestionType) : Weights :=
  DEFAULT_WEIGHTS question_type

/-- `ScoringService.GRADE_THRESHOLDS`. -/
structure GradeThresholds where
  excellent : ℚ
  good : ℚ
  average : ℚ
  poor : ℚ

def GRADE_THRESHOLDS : GradeThresholds :=
  ⟨85/100, 70/100, 50/100, 0⟩

/-- `ScoringService.classify_grade`. -/
def classify_grade (score : ℚ) : Str :=
  if GRADE_THRESHOLDS.excellent ≤ score then str "excellent"
  else if GRADE_THRESHOLDS.good ≤ score then str "good"
  else if GRADE_THRESHOLDS.average ≤ score then str "average"
  else str "poor"

/-- Inner pass of the Levenshtein dynamic-programming loop of
`ScoringService._word_similarity`: build the tail of row `i` of the matrix
from row `i-1`.  `above` walks `matrix[i-1][j]`, `diag` is
`matrix[i-1][j-1]` and `left` is the cell `matrix[i][j-1]` just written. -/
def levRowGo (x : Char) : Str → List ℕ → ℕ → ℕ → List ℕ
  | [], _, _, _ => []
  | _ :: _, [], _, _ => []
  | y :: ys, above :: rest, diag, left =>
    let cost : ℕ := if x = y then 0 else 1
    let cur := min (above + 1) (min (left + 1) (diag + cost))
    cur :: levRowGo x ys rest above cur

/-- Row `i` of the edit-distance matrix (first cell `matrix[i][0] = i`). -/
def levRow (x : Char) (w2 : Str) (i : ℕ) (prev : List ℕ) : List ℕ :=
  match prev with
  | [] => []
  | p0 :: ptail => i :: levRowGo x w2 ptail p0 i

/-- The edit-distance computation embedded from
`ScoringService._word_similarity` (the `matrix` double loop):
row 0 is `[0..len2]` and row `i` is derived from row `i-1`; the distance is
the last cell of the last row. -/
def levenshtein (w1 w2 : Str) : ℕ :=
  let row0 := List.range (w2.length + 1)
  let finalRow := w1.enum.foldl (fun prev ix => levRow ix.2 w2 (ix.1 + 1) prev) row0
  finalRow.getLastD 0

/-- `ScoringService._word_similarity`.  Order of tests as in the source:
exact equality → 1.0; substring containment → 0.9; empty-word guard → 0.0
(unreachable, since the empty string is contained in every string); else
`1 - distance / max_len`. -/
def word_similarity (word1 word2 : Str) : ℚ :=
  if word1 = word2 then 1
  else if containsSub word1 word2 || containsSub word2 word1 then 9/10
  else if word1.length = 0 ∨ word2.length = 0 then 0
  else 1 - (levenshtein word1 word2 : ℚ) / (max word1.length word2.length : ℕ)

/-- The keyword normalisation `set(kw.lower().strip() for kw in kws if kw)`
of `ScoringService.calculate_keyword_coverage`.  A Python `set` is modelled
as a duplicate-free list; Python's set iteration order is unspecified, and
the model fixes one order (the claims proved below do not depend on it). -/
def normKeywords (kws : List Str) : List Str :=
  ((kws.filter (fun kw => kw ≠ [])).map (fun kw => pyStrip (lowerStr kw))).dedup

/-- Whether one model keyword counts as matched: exact set membership first,
then (when fuzzy matching is enabled — the source's parameter
`partial_match`, renamed because of Lean lexical constraints) any student
keyword of similarity at least the threshold. -/
def kwMatched (student_set : List Str) (fuzzy_match : Bool) (fuzzy_threshold : ℚ)
    (model_kw : Str) : Bool :=
  if model_kw ∈ student_set then true
  else if fuzzy_match then
    student_set.any (fun student_kw => fuzzy_threshold ≤ word_similarity model_kw student_kw)
  else false

/-- `ScoringService.calculate_keyword_coverage` (source defaults:
`partial_match=True`, `partial_threshold=0.8`).  Returns
`(coverage_score, matched_keywords, missing_keywords)`. -/
def calculate_keyword_coverage (model_keywords student_keywords : List Str)
    (fuzzy_match : Bool) (fuzzy_threshold : ℚ) : ℚ × List Str × List Str :=
  if model_keywords = [] then (1, [], [])
  else
    let model_set := normKeywords model_keywords
    let student_set := normKeywords student_keywords
    let matched := model_set.filter (fun mk => kwMatched student_set fuzzy_match fuzzy_threshold mk)
    let missing := model_set.filter (fun mk => ¬ kwMatched student_set fuzzy_match fuzzy_threshold mk)
    let coverage : ℚ := if model_set = [] then 0 else (matched.length : ℚ) / (model_set.length : ℚ)
    (coverage, matched, missing)

/-- `ScoringService.calculate_length_penalty` (source defaults
`min_ratio=0.5`, `penalty_factor=0.1`). -/
def calculate_length_penalty (model_length student_length : ℕ)
    (min_ratio penalty_factor : ℚ) : ℚ :=
  if model_length = 0 then 0
  else
    let ratio : ℚ := (student_length : ℚ) / (model_length : ℚ)
    if min_ratio ≤ ratio then 0
    else
      let deficit := min_ratio - ratio
      let penalty := deficit * penalty_factor
      min penalty penalty_factor

/-- The weight-resolution step at the start of
`ScoringService.calculate_final_score`: when `diagram_score == 0.0` the
diagram weight is dropped and the semantic/keyword weights are renormalised
by their sum. -/
def resolveWeights (question_type : QuestionType) (diagram_score : ℚ) : Weights :=
  let weights := get_weights question_type
  if diagram_score = 0 then
    let total_weight := weights.semantic + weights.keyword
    ⟨weights.semantic / total_weight, weights.keyword / total_weight, 0⟩
  else weights

/-- Python `round(x, n)` modelled as rounding `x·10^n` to the nearest
integer (the source rounds IEEE floats, with ties to even; ties are
immaterial to every property proved here). -/
def pyRound (n : ℕ) (x : ℚ) : ℚ :=
  (round (x * 10 ^ n) : ℤ) / 10 ^ n

/-- `ScoringService.calculate_final_score`: weighted sum, length penalty,
clamp to `[0,1]`, marks, grade.  Returns
`(final_score, obtained_marks, grade)`. -/
def calculate_final_score (semantic_score keyword_score diagram_score length_penalty : ℚ)
    (question_type : QuestionType) (max_marks : ℕ) : ℚ × ℚ × Str :=
  let weights := resolveWeights question_type diagram_score
  let weighted_score :=
    semantic_score * weights.semantic +
    keyword_score * weights.keyword +
    diagram_score * weights.diagram
  let final_score := max 0 (weighted_score - length_penalty)
  let final_score := min 1 (max 0 final_score)
  let obtained_marks := pyRound 2 (final_score * (max_marks : ℚ))
  let grade := classify_grade final_score
  (final_score, obtained_marks, grade)

/-- The `QuestionType(value)` enum constructor: `some` on the four defined
values, `none` (a `ValueError` in Python) otherwise. -/
def questionTypeFromValue (s : Str) : Option QuestionType :=
  if s = str "factual" then some .factual
  else if s = str "descriptive" then some .descriptive
  else if s = str "diagram" then some .diagram
  else if s = str "mixed" then some .mixed
  else none

/-- `@dataclass ScoreResult` of `scoring_service.py`. -/
structure ScoreResult where
  semantic_score : ℚ
  keyword_score : ℚ
  diagram_score : ℚ
  length_penalty : ℚ
  final_score : ℚ
  obtained_marks : ℚ
  max_marks : ℕ
  grade : Str
  matched_keywords : List Str
  missing_keywords : List Str
deriving DecidableEq, Repr

/-- `ScoringService.evaluate_answer`.  The `try/except ValueError` around
`QuestionType(question_type.lower())` becomes `Option.getD` with default
`DESCRIPTIVE`. -/
def evaluate_answer (model_text student_text : Str)
    (model_keywords student_keywords : List Str)
    (semantic_score diagram_score : ℚ) (question_type : Str) (max_marks : ℕ) :
    ScoreResult :=
  let q_type := (questionTypeFromValue (lowerStr question_type)).getD QuestionType.descriptive
  let kc := calculate_keyword_coverage model_keywords student_keywords true (8/10)
  let length_penalty :=
    calculate_length_penalty (pySplit model_text).length (pySplit student_text).length (1/2) (1/10)
  let fs := calculate_final_score semantic_score kc.1 diagram_score length_penalty q_type max_marks
  { semantic_score := pyRound 4 semantic_score
    keyword_score := pyRound 4 kc.1
    diagram_score := pyRound 4 diagram_score
    length_penalty := pyRound 4 length_penalty
    final_score := pyRound 4 fs.1
    obtained_marks := fs.2.1
    max_marks := max_marks
    grade := fs.2.2
    matched_keywords := kc.2.1
    missing_keywords := kc.2.2 }

/-- Modelled from the spec's words, for refinement comparison with
`calculate_length_penalty`: `ratio = student_length / max(model_length, 1)`;
penalty `0` when `ratio ≥ 0.5`, else `(0.5 - ratio) * 0.1` capped at `0.1`. -/
def spec_length_penalty (model_length student_length : ℕ) : ℚ :=
  let ratio : ℚ := (student_length : ℚ) / ((max model_length 1 : ℕ) : ℚ)
  if (1/2 : ℚ) ≤ ratio then 0
  else min (((1/2 : ℚ) - ratio) * (1/10)) (1/10)

end ScoringService


namespace OCRService

/-- One OCR backend output: the dict
`{"text", "confidence", "engine", "source_engine", "variant", "char_count"}`
built by `run_engine` inside `OCRService._extract_ensemble`, restricted to
the fields the fusion and selection logic reads. -/
structure EngineResult where
  text : Str
  confidence : ℚ
  source_engine : Str
  char_count : ℕ
deriving DecidableEq, Repr

/-- Association-list lookup, modelling Python dict access (`d[k]`, `k in d`).
Python dicts preserve insertion order; the model keeps entries in insertion
order. -/
def alookup {α : Type} (key : Str) : List (Str × α) → Option α
  | [] => none
  | (k, v) :: t => if k = key then some v else alookup key t

/-- Association-list write `d[k] = v`: overwrite in place if the key exists,
else append at the end (Python dict insertion order). -/
def aupdate {α : Type} (key : Str) (v : α) : List (Str × α) → List (Str × α)
  | [] => [(key, v)]
  | (k, v') :: t => if k = key then (key, v) :: t else (k, v') :: aupdate key v t

/-- One step of the "Phase 3: pick best output per engine" loop of
`OCRService._extract_ensemble`:
`if eng not in best_per_engine or r["char_count"] > best_per_engine[eng]["char_count"]:
best_per_engine[eng] = r`. -/
def bestStep (best_per_engine : List (Str × EngineResult)) (r : EngineResult) :
    List (Str × EngineResult) :=
  match alookup r.source_engine best_per_engine with
  | none => aupdate r.source_engine r best_per_engine
  | some cur =>
    if cur.char_count < r.char_count then aupdate r.source_engine r best_per_engine
    else best_per_engine

/-- The whole Phase-3 loop: `for r in all_results: ...`. -/
def bestPerEngine (all_results : List EngineResult) : List (Str × EngineResult) :=
  all_results.foldl bestStep []

/-- Specification-side description of the Phase-3 survivor for one backend:
the first result of that backend whose `char_count` is maximal among the
backend's results. -/
def firstBestFor (eng : Str) (rs : List EngineResult) : Option EngineResult :=
  let same := rs.filter (fun r => r.source_engine = eng)
  same.find? (fun r => same.all (fun r2 => r2.char_count ≤ r.char_count))


/-- Single-key view of the Phase-3 update: keep the current survivor unless
the new result has strictly more characters. -/
def bestOf (c : EngineResult) (l : List EngineResult) : EngineResult :=
  l.foldl (fun cur r => if cur.char_count < r.char_count then r else cur) c

/-- Single-key view of the Phase-3 loop starting from an optional current
survivor. -/
def best1 (o : Option EngineResult) (l : List EngineResult) : Option EngineResult :=
  l.foldl (fun o r => some (match o with
    | none => r
    | some c => if c.char_count < r.char_count then r else c)) o

namespace TextFuser

/-- Python `str.splitlines()`, restricted to `\n` line separators (the only
separator the OCR text-assembly code produces): no trailing empty line for a
trailing `\n`, and `[]` on the empty string. -/
def splitlinesGo (cur : Str) : Str → List Str
  | [] => [cur.reverse]
  | c :: t =>
    if c = '\n' then
      if t = [] then [cur.reverse] else cur.reverse :: splitlinesGo [] t
    else splitlinesGo (c :: cur) t

def splitlines (s : Str) : List Str :=
  if s = [] then [] else splitlinesGo [] s

/-- One value of the `weighted` dict of `TextFuser._vote_words`:
`{"word": ..., "score": ..., "alpha_count": ...}`. -/
structure VoteEntry where
  word : Str
  score : ℚ
  alpha_count : ℕ
deriving DecidableEq, Repr

/-- `sum(c.isalpha() for c in word)` (ASCII level). -/
def alphaCount (w : Str) : ℕ := (w.filter isAsciiAlpha).length

/-- The body of the inner `for words, conf` loop of `TextFuser._vote_words`
for one voting word: create the entry if absent, add the confidence to its
score, and keep the surface form with the strictly largest alphabetic count
seen so far. -/
def addVote (acc : List (Str × VoteEntry)) (word : Str) (conf : ℚ) :
    List (Str × VoteEntry) :=
  let key := lowerStr word
  let e0 := (alookup key acc).getD ⟨word, 0, 0⟩
  let e1 : VoteEntry := ⟨e0.word, e0.score + conf, e0.alpha_count⟩
  let ac := alphaCount word
  let e2 : VoteEntry := if e1.alpha_count < ac then ⟨word, e1.score, ac⟩ else e1
  aupdate key e2 acc

/-- Loop body of the `weighted`-dict construction at word position `i`:
`if i < len(words)`, strip the word, skip empty words, else vote. -/
def bwStep (i : ℕ) (acc : List (Str × VoteEntry)) (wl : List Str × ℚ) :
    List (Str × VoteEntry) :=
  match wl.1.get? i with
  | none => acc
  | some w =>
    let word := pyStrip w
    if word = [] then acc else addVote acc word wl.2

/-- The `weighted` dict built at word position `i` from the per-candidate
word lists. -/
def buildWeighted (word_lists : List (List Str × ℚ)) (i : ℕ) :
    List (Str × VoteEntry) :=
  word_lists.foldl (bwStep i) []

/-- The comparison key `(v["score"], v["alpha_count"])` of the `max` call,
as a strict lexicographic order. -/
def voteKeyLt (a b : VoteEntry) : Prop :=
  a.score < b.score ∨ (a.score = b.score ∧ a.alpha_count < b.alpha_count)

instance (a b : VoteEntry) : Decidable (voteKeyLt a b) := by
  unfold voteKeyLt
  infer_instance

/-- Python `max(values, key=...)`: scan the values in insertion order and
replace the current best only on a strictly greater key, so the first
maximal element wins ties. -/
def maxEntry (first : VoteEntry) (rest : List VoteEntry) : VoteEntry :=
  rest.foldl (fun best v => if voteKeyLt best v then v else best) first

/-- `TextFuser._vote_words`.  (On the empty candidate list — which no caller
produces — Python would raise in `max()`; the model returns the empty
string.) -/
def _vote_words (candidates : List (Str × ℚ)) : Str :=
  match candidates with
  | [c] => c.1
  | _ =>
    let word_lists := candidates.map (fun c => (pySplit c.1, c.2))
    let max_len := (word_lists.map (fun wl => wl.1.length)).foldl max 0
    let fused_words := (List.range max_len).filterMap (fun i =>
      match buildWeighted word_lists i with
      | [] => none
      | (_, e) :: rest => some (maxEntry e (rest.map Prod.snd)).word)
    List.intercalate (str " ") fused_words

/-- Stable insertion of one result into a confidence-descending list:
insert before the first element with smaller-or-equal confidence. -/
def insertByConfDesc (r : EngineResult) : List EngineResult → List EngineResult
  | [] => [r]
  | x :: xs =>
    if x.confidence ≤ r.confidence then r :: x :: xs else x :: insertByConfDesc r xs

/-- `results.sort(key=lambda r: r.get("confidence", 0), reverse=True)`:
Python's sort is stable, and a stable descending insertion sort produces the
same list. -/
def sortByConfDesc (l : List EngineResult) : List EngineResult :=
  l.foldr insertByConfDesc []

/-- `TextFuser.fuse`.  The call
`difflib.get_close_matches(anchor_line, lines, n=1, cutoff=0.25)` is kept
abstract as the parameter `closeMatches` (returning the best match, if any);
every theorem below holds for all values of that parameter. -/
def fuse (closeMatches : Str → List Str → Option Str)
    (results : List EngineResult) : Str :=
  if results = [] then []
  else
    match results.filter (fun r => pyStrip r.text ≠ []) with
    | [] => []
    | [r] => pyStrip r.text
    | r1 :: r2 :: rtl =>
      let sorted := sortByConfDesc (r1 :: r2 :: rtl)
      match sorted.map (fun r => (splitlines (pyStrip r.text), r.confidence)) with
      | [] => []
      | (anchor_lines, aconf) :: others =>
        let fused_lines := anchor_lines.map (fun anchor_line =>
          if pyStrip anchor_line = [] then []
          else
            _vote_words ((anchor_line, aconf) ::
              others.filterMap (fun lc =>
                (closeMatches anchor_line lc.1).map (fun m => (m, lc.2)))))
        pyStrip (List.intercalate (str "\n") fused_lines)

/-- The vote one candidate contributes to key `key` at word position `i`,
if any: its stripped nonempty position-`i` word when that word's lowercase
form is `key`, paired with the candidate's confidence. -/
def voteAtOf (i : ℕ) (key : Str) (wl : List Str × ℚ) : Option (Str × ℚ) :=
  match wl.1.get? i with
  | none => none
  | some w =>
    let word := pyStrip w
    if word = [] then none
    else if lowerStr word = key then some (word, wl.2) else none

/-- The votes that reach the `weighted` dict entry of key `key` at word
position `i` (specification-side view of `buildWeighted`, used to state
what the voting aggregates). -/
def votesAt (word_lists : List (List Str × ℚ)) (i : ℕ) (key : Str) :
    List (Str × ℚ) :=
  word_lists.filterMap (voteAtOf i key)


/-- Single-key view of `addVote`: what one vote does to the entry of the
voted word's key. -/
def voteStep (o : Option VoteEntry) (word : Str) (conf : ℚ) : VoteEntry :=
  let e0 := o.getD ⟨word, 0, 0⟩
  let e1 : VoteEntry := ⟨e0.word, e0.score + conf, e0.alpha_count⟩
  if e1.alpha_count < alphaCount word then ⟨word, e1.score, alphaCount word⟩ else e1

/-- Fold a list of votes for one key into an optional entry. -/
def applyVotes (o : Option VoteEntry) (votes : List (Str × ℚ)) : Option VoteEntry :=
  votes.foldl (fun o wv => some (voteStep o wv.1 wv.2)) o


/-- The aggregate facts the `weighted` entry of one key must satisfy with
respect to the votes that reached it: its surface form is one of the voted
variants, its `alpha_count` is that surface form's alphabetic count and is
maximal among the voted variants, and its score is the sum of the voters'
confidences. -/
def VoteInv (e : VoteEntry) (votes : List (Str × ℚ)) : Prop :=
  e.word ∈ votes.map Prod.fst ∧
  alphaCount e.word = e.alpha_count ∧
  (∀ w ∈ votes.map Prod.fst, alphaCount w ≤ e.alpha_count) ∧
  e.score = (votes.map Prod.snd).sum

end TextFuser


/-- `[^a-zA-Z0-9\s]`: the character class of the punctuation-line pattern in
`OCRService._postprocess_ocr` (any character that is neither ASCII
alphanumeric nor whitespace). -/
def isPunctClass (c : Char) : Bool := !(isAsciiAlnum c) && !(isPySpace c)

/-- Word character for `\b` (`[a-zA-Z0-9_]`; non-ASCII word characters are
not modelled). -/
def isWordChar (c : Char) : Bool := isAsciiAlnum c || c = '_'

/-- The class `[ \t]` of the whitespace-collapsing substitution. -/
def isSpTab (c : Char) : Bool := c = ' ' || c = '\t'

/-- Scanner for `re.sub(r'[ \t]+', ' ', text)`: every maximal run of spaces
and tabs becomes one space; `inRun` records whether the previous character
belonged to such a run. -/
def collapseGo (inRun : Bool) : Str → Str
  | [] => []
  | c :: t =>
    if isSpTab c then
      if inRun then collapseGo true t else ' ' :: collapseGo true t
    else c :: collapseGo false t

/-- `re.sub(r'[ \t]+', ' ', text)` — the first substitution of
`OCRService._postprocess_ocr`. -/
def collapseSpaces (s : Str) : Str := collapseGo false s

/-- Split off the part of a string after its last newline:
`splitLastNl w = some (v, tail)` iff `w = v ++ '\n' :: tail` with no newline
in `tail`; `none` iff `w` has no newline. -/
def splitLastNl : Str → Option (Str × Str)
  | [] => none
  | c :: t =>
    match splitLastNl t with
    | some (v, tail) => some (c :: v, tail)
    | none => if c = '\n' then some ([], t) else none

/-- One attempt of `^\s*[^a-zA-Z0-9\s]\s*$` (multiline) at a line-start
position, with Python `re` semantics for this fixed pattern: the leading
greedy `\s*` is forced to the whole whitespace run (the punctuation class
excludes whitespace), one punctuation character follows, and the trailing
greedy `\s*` backtracks to the last position where `$` holds — the end of
the string, or just before the last newline of the following whitespace
run.  Returns `some (rest, prev)` on a match, where `rest` is the remaining
input at the resume position and `prev` the last consumed character (used
to decide whether the resume position is a line start). -/
def punctMatchAt (s : Str) : Option (Str × Char) :=
  match s.dropWhile isPySpace with
  | [] => none
  | c :: r2 =>
    if isPunctClass c then
      let w2 := r2.takeWhile isPySpace
      let r3 := r2.dropWhile isPySpace
      if r3 = [] then some ([], c)
      else
        match splitLastNl w2 with
        | none => none
        | some (v, tail) =>
          some ('\n' :: (tail ++ r3), if h : v = [] then c else v.getLast (by simpa using h))
    else none

/-- `splitLastNl` decomposes its input around the last newline. -/
theorem splitLastNl_eq (w : Str) :
    ∀ v tail, splitLastNl w = some (v, tail) → w = v ++ '\n' :: tail := by
  induction w with
  | nil => intro v tail h; simp [splitLastNl] at h
  | cons c t ih =>
    intro v tail h
    cases hrec : splitLastNl t with
    | some p =>
      obtain ⟨v2, tail2⟩ := p
      simp only [splitLastNl, hrec, Option.some.injEq, Prod.mk.injEq] at h
      obtain ⟨rfl, rfl⟩ := h
      rw [List.cons_append]
      exact congrArg (c :: ·) (ih v2 tail2 hrec)
    | none =>
      by_cases hc : c = '\n'
      · simp only [splitLastNl, hrec, hc, if_pos rfl, Option.some.injEq,
          Prod.mk.injEq] at h
        obtain ⟨rfl, rfl⟩ := h
        simp [hc]
      · simp [splitLastNl, hrec, hc] at h

/-- A successful match strictly shortens the input (termination measure for
the scanner). -/
theorem punctMatchAt_shorter (s rest : Str) (prev : Char)
    (h : punctMatchAt s = some (rest, prev)) : rest.length < s.length := by
  unfold punctMatchAt at h
  cases hd : s.dropWhile isPySpace with
  | nil => rw [hd] at h; simp at h
  | cons c r2 =>
    rw [hd] at h
    dsimp only at h
    by_cases hpc : isPunctClass c = true
    · rw [if_pos hpc] at h
      by_cases hr3 : r2.dropWhile isPySpace = []
      · rw [if_pos hr3] at h
        simp only [Option.some.injEq, Prod.mk.injEq] at h
        obtain ⟨hrest, _⟩ := h
        subst hrest
        have h1 : s.length ≠ 0 := by
          intro h0
          rw [List.length_eq_zero] at h0
          subst h0
          simp [List.dropWhile] at hd
        simpa using Nat.pos_of_ne_zero h1
      · rw [if_neg hr3] at h
        cases hsplit : splitLastNl (r2.takeWhile isPySpace) with
        | none => rw [hsplit] at h; simp at h
        | some p =>
          rw [hsplit] at h
          obtain ⟨v, tail⟩ := p
          simp only [Option.some.injEq, Prod.mk.injEq] at h
          obtain ⟨hrest, _⟩ := h
          subst hrest
          have hw2 : r2.takeWhile isPySpace = v ++ '\n' :: tail :=
            splitLastNl_eq _ _ _ hsplit
          have hslen : r2.length + 1 ≤ s.length := by
            have h2 : (c :: r2).length ≤ s.length := by
              calc (c :: r2).length = (s.dropWhile isPySpace).length := by rw [hd]
                _ ≤ s.length := (List.dropWhile_suffix isPySpace).length_le
            simpa using h2
          have hA := congrArg List.length
            (List.takeWhile_append_dropWhile (p := isPySpace) (l := r2))
          rw [hw2] at hA
          simp only [List.length_append, List.length_cons] at hA
          simp only [List.length_cons, List.length_append]
          omega
    · rw [if_neg hpc] at h
      simp at h

/-- The scanner of `re.sub(r'(?m)^\s*[^a-zA-Z0-9\s]\s*$', '', text)`:
walk the string; at every line start (`ls`), try the pattern; on a match,
drop the consumed region and resume (Python's `re.sub` scans the original
string left to right with non-overlapping matches); otherwise emit the
character.  The line-start flag of the next position is decided by the
character just before it in the original string. -/
def punctGo : Bool → Str → Str
  | true, s =>
    match hm : punctMatchAt s with
    | some (rest, prev) => punctGo (prev = '\n') rest
    | none =>
      match s with
      | [] => []
      | c :: t => c :: punctGo (c = '\n') t
  | false, [] => []
  | false, c :: t => c :: punctGo (c = '\n') t
termination_by b s => s.length
decreasing_by
  · exact punctMatchAt_shorter _ _ _ hm
  · simp
  · simp

/-- `re.sub(r'(?m)^\s*[^a-zA-Z0-9\s]\s*$', '', text)` — the second
substitution of `OCRService._postprocess_ocr` (removal of
punctuation-only lines). -/
def removePunctLines (s : Str) : Str := punctGo true s

/-- Scanner for `re.sub(r'\n{3,}', '\n\n', text)`: of every maximal run of
newlines, only the first two are kept (`run` counts the newlines of the
current run already seen). -/
def nl3Go (run : ℕ) : Str → Str
  | [] => []
  | c :: t =>
    if c = '\n' then
      if run < 2 then '\n' :: nl3Go (run + 1) t else nl3Go (run + 1) t
    else c :: nl3Go 0 t

/-- `re.sub(r'\n{3,}', '\n\n', text)` — the third substitution of
`OCRService._postprocess_ocr`. -/
def collapseNewlines (s : Str) : Str := nl3Go 0 s

/-- A replacement of the corrections table: a plain word, or `\1chool`
(keep the matched group `([Ss])` and append a suffix). -/
inductive ReplRule
  | const (word : Str)
  | keepFirst (suffix : Str)
deriving DecidableEq

/-- Build the replacement text from the matched word. -/
def applyRepl : ReplRule → Str → Str
  | .const w, _ => w
  | .keepFirst suf, m => m.take 1 ++ suf

/-- The lowercase form every replacement of a rule has, given the rule's
lowercase pattern (`\1` always matches a character lowercasing to the
pattern's first character). -/
def replLower (patLower : Str) : ReplRule → Str
  | .const w => lowerStr w
  | .keepFirst suf => patLower.take 1 ++ lowerStr suf

/-- The `corrections` table of `OCRService._postprocess_ocr`, in source
order.  Patterns are stored lowercase: each is matched case-insensitively
as a whole word (`\b...\b` with `re.IGNORECASE`), and `([Ss])ohoo`-style
groups are case-insensitive anyway, so the group reduces to `keepFirst`. -/
def corrections : List (Str × ReplRule) := [
  (str "orakriti", .const (str "Prakriti")),
  (str "prakrit", .const (str "Prakriti")),
  (str "sohoo", .keepFirst (str "chool")),
  (str "schoo", .keepFirst (str "chool")),
  (str "mahavioyalaya", .const (str "Mahavidyalaya")),
  (str "mahavidya1aya", .const (str "Mahavidyalaya")),
  (str "celloge", .const (str "College")),
  (str "colege", .const (str "College")),
  (str "studunts", .const (str "students")),
  (str "studunt", .const (str "student")),
  (str "classrocr", .const (str "classroom")),
  (str "dassroom", .const (str "classroom")),
  (str "classrcom", .const (str "classroom")),
  (str "classroem", .const (str "classroom")),
  (str "knowldge", .const (str "knowledge")),
  (str "actvilies", .const (str "activities")),
  (str "activiliss", .const (str "activities")),
  (str "activilies", .const (str "activities")),
  (str "kindırgartın", .const (str "kindergarten")),
  (str "kindergartın", .const (str "kindergarten")),
  (str "handrriting", .const (str "handwriting")),
  (str "handiriting", .const (str "handwriting")),
  (str "handvriling", .const (str "handwriting")),
  (str "handrritten", .const (str "handwritten")),
  (str "handruritten", .const (str "handwritten")),
  (str "hondwritten", .const (str "handwritten")),
  (str "communicaticn", .const (str "communication")),
  (str "litracy", .const (str "literacy")),
  (str "experind", .const (str "experience")),
  (str "experinca", .const (str "experience")),
  (str "experina", .const (str "experience")),
  (str "deficulty", .const (str "difficulty")),
  (str "importanu", .const (str "importance")),
  (str "graduafion", .const (str "graduation")),
  (str "acadımic", .const (str "academic")),
  (str "whther", .const (str "whether")),
  (str "whelher", .const (str "whether")),
  (str "boyond", .const (str "beyond")),
  (str "afier", .const (str "after")),
  (str "afler", .const (str "after")),
  (str "romains", .const (str "remains")),
  (str "poople", .const (str "people")),
  (str "addifion", .const (str "addition")),
  (str "ressarch", .const (str "Research")),
  (str "sludy", .const (str "study")),
  (str "wviorld", .const (str "world")),
  (str "wiorld", .const (str "world")),
  (str "carly", .const (str "early")),
  (str "porcont", .const (str "percent")),
  (str "porcent", .const (str "percent")),
  (str "mostring", .const (str "mastering")),
  (str "mostering", .const (str "mastering")),
  (str "vensequenas", .const (str "consequences")),
  (str "eien", .const (str "Even")),
  (str "cime", .const (str "time")),
  (str "sisth", .const (str "sixth")),
  (str "wrifes", .const (str "writes"))]

/-- `True` when the next character (if any) is not a word character — the
closing `\b` of a whole-word pattern. -/
def nextNonWord : Str → Bool
  | [] => true
  | d :: _ => ! isWordChar d

/-- Scanner for one `re.sub(r'\b<pat>\b', repl, text, flags=re.IGNORECASE)`
with a fixed all-word-character pattern: at each position where the
previous character is not a word character (the opening `\b`), match the
next `|pat|` characters case-insensitively and require a non-word character
(or the end) after them; on a match emit the replacement and resume after
the matched region (in the original string, as `re.sub` does). -/
def wordSubGo (patLower : Str) (rule : ReplRule) : Bool → Str → Str
  | _, [] => []
  | prevIsWord, c :: t =>
    if h : prevIsWord = false ∧ patLower ≠ [] ∧
        lowerStr ((c :: t).take patLower.length) = patLower ∧
        nextNonWord ((c :: t).drop patLower.length) = true then
      applyRepl rule ((c :: t).take patLower.length) ++
        wordSubGo patLower rule
          (isWordChar (((c :: t).take patLower.length).getLastD c))
          ((c :: t).drop patLower.length)
    else c :: wordSubGo patLower rule (isWordChar c) t
termination_by b s => s.length
decreasing_by
  · rcases h with ⟨_, hne, _⟩
    have hlen : 1 ≤ patLower.length := List.length_pos.mpr hne
    simp only [List.length_drop, List.length_cons]
    omega
  · simp

/-- One whole-word, case-insensitive substitution. -/
def wordSub (patLower : Str) (rule : ReplRule) (s : Str) : Str :=
  wordSubGo patLower rule false s

/-- The `for pat, repl in corrections.items(): text = re.sub(...)` loop. -/
def applyCorrections (s : Str) : Str :=
  corrections.foldl (fun t pr => wordSub pr.1 pr.2 t) s

/-- `OCRService._postprocess_ocr`: early return on the empty string, the
three structural cleanups, the word corrections, and the final `strip`. -/
def _postprocess_ocr (s : Str) : Str :=
  if s = [] then s
  else pyStrip (applyCorrections (collapseNewlines (removePunctLines (collapseSpaces s))))

/-- Fixed points of the whitespace-collapsing substitution: no tab, and no
two adjacent spaces. -/
def WOk (s : Str) : Prop :=
  '\t' ∉ s ∧ List.Chain' (fun a b => ¬(a = ' ' ∧ b = ' ')) s

/-- Whether `^\s*[^a-zA-Z0-9\s]\s*$` matches at this position: after the
leading whitespace run there is a punctuation character, and after its
trailing whitespace run comes the end of the string, or that run contains a
newline for `$` to stop at. -/
def matchExists (s : Str) : Bool :=
  match s.dropWhile isPySpace with
  | [] => false
  | c :: r2 =>
    isPunctClass c &&
      (r2.dropWhile isPySpace = [] || '\n' ∈ r2.takeWhile isPySpace)

/-- Fixed points of the punctuation-line removal, as a scan: no line start
(tracked by `ls`) carries a match. -/
def punctClean (ls : Bool) : Str → Bool
  | [] => true
  | c :: t => (!(ls && matchExists (c :: t))) && punctClean (c = '\n') t

/-- Fixed points of the newline-collapsing substitution: never three
consecutive newlines (`run` counts the newlines immediately preceding). -/
def noTripleNl (run : ℕ) : Str → Bool
  | [] => true
  | c :: t =>
    if c = '\n' then decide (run < 2) && noTripleNl (run + 1) t
    else noTripleNl 0 t

/-- The maximal word-character runs of a string, in order. -/
def wordRuns : Str → List Str
  | [] => []
  | c :: t =>
    if isWordChar c then
      (c :: t.takeWhile isWordChar) :: wordRuns (t.dropWhile isWordChar)
    else wordRuns t
termination_by s => s.length
decreasing_by
  · have := (List.dropWhile_suffix isWordChar (l := t)).length_le
    simp only [List.length_cons]
    omega
  · simp

/-- What the whole corrections chain does to one lowercase word. -/
def chainApply (rs : List (Str × ReplRule)) (w : Str) : Str :=
  rs.foldl (fun w pr => if w = pr.1 then replLower pr.1 pr.2 else w) w

/-- Whether the next `q.length` characters match `q` case-insensitively and
are followed by a word boundary (the closing `\b`). -/
def matchFromB (q s : Str) : Bool :=
  decide (lowerStr (s.take q.length) = q) && nextNonWord (s.drop q.length)

/-- Whether a whole-word, case-insensitive occurrence of `p` starts here;
the opening `\b` (about the previous character) is checked by the caller. -/
def occAt (p s : Str) : Bool := decide (p ≠ []) && matchFromB p s

/-- Fixed points of one word substitution, as a scan: no position carries
an occurrence of `p` whose opening `\b` holds (the Boolean tracks whether
the previous character is a word character). -/
def noMatch (p : Str) : Bool → Str → Bool
  | _, [] => true
  | b, c :: t => !(decide (b = false) && occAt p (c :: t)) && noMatch p (isWordChar c) t

/-- Whether an occurrence of pattern `p` could begin `k` characters before
a given point: at `k = 0` always, otherwise only when the `(k-1)`-th
character of `p` is a non-word character (so a `\b` can hold there). -/
def entryAt (p : Str) : ℕ → Bool
  | 0 => true
  | k + 1 =>
    match p.drop k with
    | c :: _ => ! isWordChar c
    | [] => false

/-- Boolean initial-segment test. -/
def isPrefB : Str → Str → Bool
  | [], _ => true
  | _ :: _, [] => false
  | a :: as, b :: bs => a = b && isPrefB as bs

/-- A replacement word `w` cannot seed an occurrence of pattern `p`: at no
admissible entry offset is `w` an initial segment of the rest of `p`. -/
def scOK (p w : Str) : Bool :=
  (List.range (p.length + 1)).all fun k => !(entryAt p k && isPrefB w (p.drop k))

/-- Shape conditions on one correction rule, all checkable by computation:
pattern and replacement nonempty, replacement all alphanumeric, pattern
ending in a word character, starting alphanumeric and newline-free. -/
def ruleOKb (pr : Str × ReplRule) : Bool :=
  let p := pr.1
  let w := replLower pr.1 pr.2
  decide (p ≠ []) && decide (w ≠ []) && w.all isAsciiAlnum &&
    isWordChar (p.getLastD 'x') && isAsciiAlnum (p.headD 'x') &&
    p.all fun c => decide (c ≠ '\n')

/-- One word substitution as a relation between input and output: a
character is copied when no occurrence (with its opening `\b`) starts at
its position, and a matched occurrence is replaced as a block.  The
Boolean index is the word-character status of the previous character. -/
inductive Rsub (patLower : Str) (rule : ReplRule) : Bool → Str → Str → Prop
  | nil (b : Bool) : Rsub patLower rule b [] []
  | copy (b : Bool) (c : Char) (t t' : Str)
      (hnm : ¬(b = false ∧ occAt patLower (c :: t) = true))
      (h : Rsub patLower rule (isWordChar c) t t') :
      Rsub patLower rule b (c :: t) (c :: t')
  | repl (m t t' : Str) (hm : lowerStr m = patLower)
      (hnw : nextNonWord t = true)
      (h : Rsub patLower rule true t t') :
      Rsub patLower rule false (m ++ t) (applyRepl rule m ++ t')


end OCRService

namespace Claims

open ScoringService OCRService TextFuser

/-- C4: for every question type and every diagram score, the three weights
actually used in the weighted sum of `calculate_final_score` (the resolved
weights) sum to exactly 1; and when no diagram score is available
(`diagram_score == 0.0`) the diagram weight is set to 0 and the semantic and
keyword weights are the defaults rescaled proportionally by their sum. -/
theorem weight_normalization_invariant (q : QuestionType) (d : ℚ) :
    (resolveWeights q d).semantic + (resolveWeights q d).keyword +
      (resolveWeights q d).diagram = 1
    ∧ (d = 0 →
        (resolveWeights q d).diagram = 0 ∧
        (resolveWeights q d).semantic =
          (get_weights q).semantic / ((get_weights q).semantic + (get_weights q).keyword) ∧
        (resolveWeights q d).keyword =
          (get_weights q).keyword / ((get_weights q).semantic + (get_weights q).keyword)) := by
  rcases q <;> by_cases hd : d = 0 <;>
    simp [resolveWeights, get_weights, DEFAULT_WEIGHTS, hd] <;> norm_num

/-- Witness for C4 at question type `factual` with no diagram score. -/
theorem weight_normalization_invariant_witness :
    ((resolveWeights .factual 0).semantic + (resolveWeights .factual 0).keyword +
      (resolveWeights .factual 0).diagram = 1)
    ∧ (resolveWeights .factual 0).diagram = 0 ∧
      (resolveWeights .factual 0).semantic =
        (get_weights .factual).semantic /
          ((get_weights .factual).semantic + (get_weights .factual).keyword) ∧
      (resolveWeights .factual 0).keyword =
        (get_weights .factual).keyword /
          ((get_weights .factual).semantic + (get_weights .factual).keyword) :=
  ⟨(weight_normalization_invariant .factual 0).1,
   (weight_normalization_invariant .factual 0).2 rfl⟩

/-- C5: keyword coverage returns `|matched| / |normalised model keyword set|`
(for a nonempty model keyword list), and on the empty model keyword list it
returns exactly `(1.0, [], [])` for every student keyword list, never
dividing by zero; when the normalised set is empty the explicit guard
returns 0. -/
theorem keyword_coverage_ratio (mks sks : List Str) (h : mks ≠ []) :
    (calculate_keyword_coverage mks sks true (8/10)).1 =
      ((calculate_keyword_coverage mks sks true (8/10)).2.1.length : ℚ) /
        ((normKeywords mks).length : ℚ)
    ∧ (normKeywords mks = [] → (calculate_keyword_coverage mks sks true (8/10)).1 = 0)
    ∧ (∀ sks2 : List Str, calculate_keyword_coverage [] sks2 true (8/10) = (1, [], [])) := by
  refine ⟨?_, ?_, fun sks2 => by simp [calculate_keyword_coverage]⟩
  · unfold calculate_keyword_coverage
    rw [if_neg h]
    by_cases hm : normKeywords mks = []
    · simp [hm]
    · simp [hm]
  · intro hm
    unfold calculate_keyword_coverage
    rw [if_neg h]
    simp [hm]

/-- Witness for C5 at a concrete nonempty model keyword list. -/
theorem keyword_coverage_ratio_witness :
    (calculate_keyword_coverage [str "cell"] [str "wall"] true (8/10)).1 =
      ((calculate_keyword_coverage [str "cell"] [str "wall"] true (8/10)).2.1.length : ℚ) /
        ((normKeywords [str "cell"]).length : ℚ)
    ∧ (normKeywords [str "cell"] = [] →
        (calculate_keyword_coverage [str "cell"] [str "wall"] true (8/10)).1 = 0)
    ∧ (∀ sks2 : List Str, calculate_keyword_coverage [] sks2 true (8/10) = (1, [], [])) :=
  keyword_coverage_ratio [str "cell"] [str "wall"] (by decide)

/-- The empty string is a substring of every string (as in Python). -/
theorem containsSub_nil (hay : Str) : containsSub [] hay = true := by
  induction hay with
  | nil => rfl
  | cons c t ih => simp [containsSub, List.tails] at ih ⊢ ; exact Or.inr ih

/-- Reflexivity of `word_similarity`. -/
theorem word_similarity_self (w : Str) : word_similarity w w = 1 := by
  simp [word_similarity]

/-- C6: the fuzzy word similarity is 1 on equal words, 0.9 on (unequal)
substring containment, and `1 - levenshtein/max-length` otherwise; a model
keyword is matched iff some student keyword reaches similarity ≥ 0.8; and
`similarity("running","run") = 0.9` (containment) while
`similarity("color","colour") = 5/6 ≥ 0.8` (edit distance). -/
theorem word_similarity_rules (w1 w2 : Str) (hne : w1 ≠ w2)
    (hc : (containsSub w1 w2 || containsSub w2 w1) = true) :
    (∀ v : Str, word_similarity v v = 1)
    ∧ word_similarity w1 w2 = 9/10
    ∧ (∀ v1 v2 : Str, v1 ≠ v2 → (containsSub v1 v2 || containsSub v2 v1) = false →
        word_similarity v1 v2 =
          1 - (levenshtein v1 v2 : ℚ) / (max v1.length v2.length : ℕ))
    ∧ (∀ mks sks mk, mk ∈ (calculate_keyword_coverage mks sks true (8/10)).2.1 ↔
        mk ∈ normKeywords mks ∧
          ∃ sk ∈ normKeywords sks, (8/10 : ℚ) ≤ word_similarity mk sk)
    ∧ word_similarity (str "running") (str "run") = 9/10
    ∧ word_similarity (str "color") (str "colour") = 5/6
    ∧ (8/10 : ℚ) ≤ 5/6 := by
  refine ⟨fun v => word_similarity_self v, by simp [word_similarity, hne, hc], ?_, ?_, ?_, ?_,
    by norm_num⟩
  · intro v1 v2 hn hc2
    have h1 : v1.length ≠ 0 := by
      intro h0
      rw [List.length_eq_zero] at h0
      subst h0
      simp [containsSub_nil] at hc2
    have h2 : v2.length ≠ 0 := by
      intro h0
      rw [List.length_eq_zero] at h0
      subst h0
      simp [containsSub_nil] at hc2
    simp [word_similarity, hn, hc2, h1, h2]
  · intro mks sks mk
    by_cases hmk : mks = []
    · subst hmk
      simp [calculate_keyword_coverage, normKeywords]
    · unfold calculate_keyword_coverage
      rw [if_neg hmk]
      simp only [List.mem_filter]
      constructor
      · rintro ⟨hmem, hmatch⟩
        refine ⟨hmem, ?_⟩
        unfold kwMatched at hmatch
        by_cases hin : mk ∈ normKeywords sks
        · exact ⟨mk, hin, by rw [word_similarity_self]; norm_num⟩
        · rw [if_neg hin] at hmatch
          simp only [if_true] at hmatch
          rcases List.any_eq_true.mp hmatch with ⟨sk, hsk, hle⟩
          exact ⟨sk, hsk, by exact_mod_cast of_decide_eq_true hle⟩
      · rintro ⟨hmem, sk, hsk, hle⟩
        refine ⟨hmem, ?_⟩
        unfold kwMatched
        by_cases hin : mk ∈ normKeywords sks
        · rw [if_pos hin]
        · rw [if_neg hin, if_pos rfl]
          exact List.any_eq_true.mpr ⟨sk, hsk, decide_eq_true hle⟩
  · simp only [word_similarity]
    rw [if_neg (by decide), if_pos (by decide)]
  · have hlev : levenshtein (str "color") (str "colour") = 1 := by decide
    have hmax : max (str "color").length (str "colour").length = 6 := by decide
    simp only [word_similarity]
    rw [if_neg (by decide), if_neg (by decide), if_neg (by decide), hlev, hmax]
    norm_num

/-- Witness for C6: equal words score 1, and `"run"` contained in
`"running"` scores 0.9. -/
theorem word_similarity_rules_witness :
    word_similarity (str "run") (str "run") = 1
    ∧ word_similarity (str "running") (str "run") = 9/10 :=
  ⟨(word_similarity_rules (str "running") (str "run") (by decide) (by decide)).1 (str "run"),
   (word_similarity_rules (str "running") (str "run") (by decide) (by decide)).2.1⟩

/-- C7 counterexample: at `model_length = 0`, `student_length = 0` the code
returns 0 (its `model_length == 0` early return) while the claimed formula
with `max(model_length, 1)` yields `(0.5 - 0) * 0.1 = 0.05`. -/
theorem length_penalty_zero_model_counterexample :
    calculate_length_penalty 0 0 (1/2) (1/10) ≠ spec_length_penalty 0 0 := by
  have h1 : calculate_length_penalty 0 0 (1/2) (1/10) = 0 := by
    simp [calculate_length_penalty]
  have h2 : spec_length_penalty 0 0 = 1/20 := by
    simp only [spec_length_penalty]
    norm_num
  rw [h1, h2]
  norm_num

/-- C7 (amended): for `model_length ≠ 0` the penalty is exactly the claimed
formula (`0` when the ratio reaches `0.5`, else `(0.5 - ratio) * 0.1` capped
at `0.1`); for `model_length = 0` the code returns `0` regardless of the
student length; and a length-0 student answer against a length-100 model
answer is penalised `0.05`. -/
theorem length_penalty_formula (m s : ℕ) (hm : m ≠ 0) :
    calculate_length_penalty m s (1/2) (1/10) = spec_length_penalty m s
    ∧ (∀ s2 : ℕ, calculate_length_penalty 0 s2 (1/2) (1/10) = 0)
    ∧ calculate_length_penalty 100 0 (1/2) (1/10) = 1/20 := by
  refine ⟨?_, fun s2 => by simp [calculate_length_penalty], ?_⟩
  · have hmax : max m 1 = m := Nat.max_eq_left (Nat.one_le_iff_ne_zero.mpr hm)
    simp only [calculate_length_penalty, spec_length_penalty, hmax]
    rw [if_neg hm]
  · simp only [calculate_length_penalty]
    norm_num

/-- Witness for C7's amended theorem at the claim's own scenario
(`model_length = 100`, `student_length = 0`). -/
theorem length_penalty_formula_witness :
    calculate_length_penalty 100 0 (1/2) (1/10) = spec_length_penalty 100 0
    ∧ (∀ s2 : ℕ, calculate_length_penalty 0 s2 (1/2) (1/10) = 0)
    ∧ calculate_length_penalty 100 0 (1/2) (1/10) = 1/20 :=
  length_penalty_formula 100 0 (by norm_num)

/-- Both resolved weights used for the semantic and keyword scores are
nonnegative, for every question type and diagram score. -/
theorem resolveWeights_nonneg (q : QuestionType) (d : ℚ) :
    0 ≤ (resolveWeights q d).semantic ∧ 0 ≤ (resolveWeights q d).keyword := by
  rcases q <;> by_cases hd : d = 0 <;>
    simp [resolveWeights, get_weights, DEFAULT_WEIGHTS, hd] <;> norm_num

/-- C9: with the question type, diagram score, length penalty and maximum
marks held fixed, the final score of `calculate_final_score` is
non-decreasing in the semantic score and in the keyword score over `[0,1]`. -/
theorem final_score_monotone (q : QuestionType) (d p : ℚ) (mm : ℕ)
    (s1 s2 k1 k2 : ℚ) (hs0 : 0 ≤ s1) (hs : s1 ≤ s2) (hs1 : s2 ≤ 1)
    (hk0 : 0 ≤ k1) (hk : k1 ≤ k2) (hk1 : k2 ≤ 1) :
    (calculate_final_score s1 k1 d p q mm).1 ≤ (calculate_final_score s2 k2 d p q mm).1 := by
  obtain ⟨hws, hwk⟩ := resolveWeights_nonneg q d
  simp only [calculate_final_score]
  refine min_le_min le_rfl (max_le_max le_rfl (max_le_max le_rfl ?_))
  refine sub_le_sub_right ?_ p
  refine add_le_add (add_le_add ?_ ?_) le_rfl
  · exact mul_le_mul_of_nonneg_right hs hws
  · exact mul_le_mul_of_nonneg_right hk hwk

/-- Witness for C9 at a concrete instance. -/
theorem final_score_monotone_witness :
    (calculate_final_score (1/4) (1/4) (1/2) (1/20) .mixed 10).1 ≤
      (calculate_final_score (3/4) (1/2) (1/2) (1/20) .mixed 10).1 :=
  final_score_monotone .mixed (1/2) (1/20) 10 (1/4) (3/4) (1/4) (1/2)
    (by norm_num) (by norm_num) (by norm_num) (by norm_num) (by norm_num) (by norm_num)

/-- C10: `evaluate_answer` never fails on an unrecognised question-type
string: any string whose lowercase form is not one of the four enum values
parses (via the `try/except`) to the `DESCRIPTIVE` profile, and the produced
`ScoreResult` equals the one produced with question type `"descriptive"`. -/
theorem unknown_question_type_defaults (mt st : Str) (mks sks : List Str)
    (sem dia : ℚ) (qt : Str) (mm : ℕ)
    (h : lowerStr qt ∉ [str "factual", str "descriptive", str "diagram", str "mixed"]) :
    (questionTypeFromValue (lowerStr qt)).getD QuestionType.descriptive =
      QuestionType.descriptive
    ∧ evaluate_answer mt st mks sks sem dia qt mm =
        evaluate_answer mt st mks sks sem dia (str "descriptive") mm := by
  simp only [List.mem_cons, List.mem_singleton, not_or] at h
  obtain ⟨h1, h2, h3, h4⟩ := h
  have hnone : questionTypeFromValue (lowerStr qt) = none := by
    simp [questionTypeFromValue, h1, h2, h3, h4]
  have hdesc : questionTypeFromValue (lowerStr (str "descriptive")) =
      some QuestionType.descriptive := by decide
  constructor
  · rw [hnone]
    rfl
  · simp only [evaluate_answer, hnone, hdesc, Option.getD_none, Option.getD_some]

/-- Witness for C10 on the unrecognised question type `"essay"`. -/
theorem unknown_question_type_defaults_witness :
    (questionTypeFromValue (lowerStr (str "essay"))).getD QuestionType.descriptive =
      QuestionType.descriptive
    ∧ evaluate_answer (str "the model") (str "the answer") [str "k"] [str "k"]
        (1/2) 0 (str "essay") 10 =
      evaluate_answer (str "the model") (str "the answer") [str "k"] [str "k"]
        (1/2) 0 (str "descriptive") 10 :=
  unknown_question_type_defaults (str "the model") (str "the answer") [str "k"] [str "k"]
    (1/2) 0 (str "essay") 10 (by decide)

/-- C1 counterexample: fusing a singleton whose text carries surrounding
whitespace returns the stripped text, not the text verbatim, for any
close-match function. -/
theorem fuse_singleton_not_verbatim :
    fuse (fun _ _ => none) [⟨str " hi ", 1, str "easyocr", 4⟩] ≠ str " hi "
    ∧ fuse (fun _ _ => none) [⟨str " hi ", 1, str "easyocr", 4⟩] = str "hi" := by
  constructor
  · intro h
    have h2 : fuse (fun _ _ => none) [⟨str " hi ", 1, str "easyocr", 4⟩] = str "hi" := by
      simp [fuse, pyStrip, str, isPySpace, List.dropWhile]
    rw [h2] at h
    exact absurd h (by decide)
  · simp [fuse, pyStrip, str, isPySpace, List.dropWhile]

/-- C1 (amended): fusing any length-1 backend-result list returns the
`strip` of the contained text (so fusion of a singleton is the identity
exactly on texts without leading or trailing whitespace), for every
close-match function. -/
theorem fuse_singleton_strips (closeMatches : Str → List Str → Option Str)
    (r : EngineResult) :
    fuse closeMatches [r] = pyStrip r.text := by
  by_cases h : pyStrip r.text = []
  · simp [fuse, h]
  · simp [fuse, h]

theorem alookup_aupdate_self {α : Type} (k : Str) (v : α) (l : List (Str × α)) :
    alookup k (aupdate k v l) = some v := by
  induction l with
  | nil => simp [aupdate, alookup]
  | cons p t ih =>
    obtain ⟨k2, v2⟩ := p
    by_cases h : k2 = k <;> simp [aupdate, alookup, h, ih]

theorem alookup_aupdate_ne {α : Type} (k k2 : Str) (hne : k2 ≠ k) (v : α)
    (l : List (Str × α)) : alookup k (aupdate k2 v l) = alookup k l := by
  induction l with
  | nil => simp [aupdate, alookup, hne]
  | cons p t ih =>
    obtain ⟨k3, v3⟩ := p
    by_cases h : k3 = k2
    · subst h
      simp [aupdate, alookup, hne]
    · simp [aupdate, alookup, h, ih]

/-- What one Phase-3 step does to the lookup at an arbitrary key. -/
theorem alookup_bestStep (acc : List (Str × EngineResult)) (r : EngineResult)
    (k : Str) :
    alookup k (bestStep acc r) =
      if r.source_engine = k then
        some (match alookup k acc with
          | none => r
          | some c => if c.char_count < r.char_count then r else c)
      else alookup k acc := by
  by_cases h : r.source_engine = k
  · subst h
    unfold bestStep
    cases hcur : alookup r.source_engine acc with
    | none => simp [hcur, alookup_aupdate_self]
    | some c =>
      by_cases hcc : c.char_count < r.char_count <;>
        simp [hcur, hcc, alookup_aupdate_self]
  · unfold bestStep
    cases hcur : alookup r.source_engine acc with
    | none => simp [h, alookup_aupdate_ne _ _ h]
    | some c =>
      by_cases hcc : c.char_count < r.char_count <;>
        simp [hcur, hcc, h, alookup_aupdate_ne _ _ h]

/-- The Phase-3 fold, restricted to one key, is the single-key fold over
that engine's results. -/
theorem alookup_foldl_bestStep (rs : List EngineResult)
    (acc : List (Str × EngineResult)) (k : Str) :
    alookup k (rs.foldl bestStep acc) =
      best1 (alookup k acc) (rs.filter (fun r => r.source_engine = k)) := by
  induction rs generalizing acc with
  | nil => simp [best1]
  | cons r t ih =>
    by_cases h : r.source_engine = k
    · have hstep := alookup_bestStep acc r k
      rw [if_pos h] at hstep
      simp only [List.foldl_cons, List.filter_cons, h]
      rw [ih, hstep]
      simp [best1]
    · have hstep := alookup_bestStep acc r k
      rw [if_neg h] at hstep
      simp only [List.foldl_cons, List.filter_cons]
      rw [if_neg (by simpa using h), ih, hstep]

theorem best1_some (c : EngineResult) (l : List EngineResult) :
    best1 (some c) l = some (bestOf c l) := by
  induction l generalizing c with
  | nil => simp [best1, bestOf]
  | cons r t ih =>
    simp only [best1, bestOf, List.foldl_cons] at ih ⊢
    by_cases h : c.char_count < r.char_count <;> simp [h, ih]

theorem find?_congrP {α : Type} (p q : α → Bool) (l : List α)
    (h : ∀ x, p x = q x) : l.find? p = l.find? q := by
  have : p = q := funext h
  rw [this]

/-- `find?` with the "at least every other element" predicate finds exactly
the left fold that keeps the first strict maximum. -/
theorem find?_all_eq_bestOf (t : List EngineResult) (c : EngineResult) :
    ((c :: t).find? (fun r =>
        (c :: t).all (fun r2 => r2.char_count ≤ r.char_count))) =
      some (bestOf c t) := by
  induction t generalizing c with
  | nil => simp [bestOf]
  | cons r t ih =>
    by_cases h : c.char_count < r.char_count
    · have hc : ((c :: r :: t).all
          (fun r2 => r2.char_count ≤ c.char_count) : Bool) = false := by
        simp only [List.all_cons, Bool.and_eq_false_imp]
        intro _
        simp [Nat.not_le.mpr h]
      have hbest : bestOf c (r :: t) = bestOf r t := by simp [bestOf, h]
      rw [hbest]
      rw [List.find?_cons_of_neg _ (by simp [hc])]
      have hcongr : ∀ x : EngineResult,
          ((c :: r :: t).all (fun r2 => r2.char_count ≤ x.char_count) : Bool) =
            ((r :: t).all (fun r2 => r2.char_count ≤ x.char_count) : Bool) := by
        intro x
        simp only [List.all_cons]
        by_cases hr : r.char_count ≤ x.char_count
        · have : c.char_count ≤ x.char_count := le_of_lt (lt_of_lt_of_le h hr)
          simp [this]
        · simp [hr]
      calc (r :: t).find? (fun r0 =>
              (c :: r :: t).all (fun r2 => r2.char_count ≤ r0.char_count))
          = (r :: t).find? (fun r0 =>
              (r :: t).all (fun r2 => r2.char_count ≤ r0.char_count)) :=
            find?_congrP _ _ _ hcongr
        _ = some (bestOf r t) := ih r
    · have hrc : r.char_count ≤ c.char_count := Nat.le_of_not_lt h
      have hbest : bestOf c (r :: t) = bestOf c t := by simp [bestOf, h]
      rw [hbest]
      by_cases hPc : (t.all (fun r2 => r2.char_count ≤ c.char_count) : Bool) = true
      · have : ((c :: r :: t).all
            (fun r2 => r2.char_count ≤ c.char_count) : Bool) = true := by
          simp [List.all_cons, hrc, hPc]
        rw [List.find?_cons_of_pos _ (by simp [this])]
        have := ih c
        rw [List.find?_cons_of_pos _ (by simp [List.all_cons, hPc])] at this
        exact this
      · have hPc2 : ((c :: r :: t).all
            (fun r2 => r2.char_count ≤ c.char_count) : Bool) = false := by
          simp only [List.all_cons, Bool.and_eq_false_imp]
          intro _ _
          simpa using hPc
        rw [List.find?_cons_of_neg _ (by simp [hPc2])]
        have hPr : ((c :: r :: t).all
            (fun r2 => r2.char_count ≤ r.char_count) : Bool) = false := by
          by_cases hcr : c.char_count ≤ r.char_count
          · have hce : c.char_count = r.char_count := le_antisymm hcr hrc
            simp only [List.all_cons, Bool.and_eq_false_imp]
            intro _ _
            rw [← hce]
            simpa using hPc
          · simp only [List.all_cons, Bool.and_eq_false_imp]
            intro hc
            exact absurd (of_decide_eq_true hc) hcr
        rw [List.find?_cons_of_neg _ (by simp [hPr])]
        have hcongr : ∀ x : EngineResult,
            ((c :: r :: t).all (fun r2 => r2.char_count ≤ x.char_count) : Bool) =
              ((c :: t).all (fun r2 => r2.char_count ≤ x.char_count) : Bool) := by
          intro x
          simp only [List.all_cons]
          by_cases hcx : c.char_count ≤ x.char_count
          · have : r.char_count ≤ x.char_count := le_trans hrc hcx
            simp [this, hcx]
          · simp [hcx]
        have := ih c
        rw [List.find?_cons_of_neg _ (by simp [List.all_cons, hPc])] at this
        calc t.find? (fun r0 =>
                (c :: r :: t).all (fun r2 => r2.char_count ≤ r0.char_count))
            = t.find? (fun r0 =>
                (c :: t).all (fun r2 => r2.char_count ≤ r0.char_count)) :=
              find?_congrP _ _ _ hcongr
          _ = some (bestOf c t) := this

/-- C2 (amended): for every result list and backend id, the Phase-3
survivor is exactly the first result of that backend attaining the maximal
`char_count` among the backend's results — so the survivor's `char_count`
is maximal, and a tie on `char_count` keeps the first-processed result,
regardless of confidence. -/
theorem best_per_engine_spec (rs : List EngineResult) (eng : Str) :
    alookup eng (bestPerEngine rs) = firstBestFor eng rs := by
  unfold bestPerEngine firstBestFor
  rw [alookup_foldl_bestStep]
  simp only [alookup]
  cases hf : rs.filter (fun r => r.source_engine = eng) with
  | nil => simp [best1]
  | cons c t =>
    have h1 : best1 none (c :: t) = best1 (some c) t := by simp [best1]
    rw [h1, best1_some, find?_all_eq_bestOf]

/-- C2 counterexample: the claim's tie-break is false — with two results of
the same backend tying on `char_count`, the survivor is the
first-processed one even when the second has higher confidence. -/
theorem best_per_engine_tie_counterexample :
    ¬ (∀ (rs : List EngineResult) (eng : Str) (r : EngineResult),
        alookup eng (bestPerEngine rs) = some r →
        ∀ r2 ∈ rs, r2.source_engine = eng → r2.char_count = r.char_count →
          r2.confidence ≤ r.confidence) := by
  intro hclaim
  have h := hclaim
    [⟨str "t1", 0, str "easyocr", 5⟩, ⟨str "t2", 1, str "easyocr", 5⟩]
    (str "easyocr") ⟨str "t1", 0, str "easyocr", 5⟩
    (by rfl)
    ⟨str "t2", 1, str "easyocr", 5⟩ (by simp) rfl rfl
  exact absurd h (by norm_num)

/-- What one `addVote` does to the lookup at an arbitrary key. -/
theorem alookup_addVote (acc : List (Str × VoteEntry)) (w : Str) (conf : ℚ)
    (k : Str) :
    alookup k (addVote acc w conf) =
      if lowerStr w = k then some (voteStep (alookup k acc) w conf)
      else alookup k acc := by
  by_cases h : lowerStr w = k
  · rw [if_pos h]
    simp only [addVote, voteStep, h]
    rw [alookup_aupdate_self]
  · rw [if_neg h]
    simp only [addVote]
    rw [alookup_aupdate_ne _ _ h]

/-- The `buildWeighted` fold, restricted to one key, applies exactly the
votes of that key in order. -/
theorem alookup_bwStep_foldl (wls : List (List Str × ℚ)) (i : ℕ)
    (acc : List (Str × VoteEntry)) (k : Str) :
    alookup k (wls.foldl (bwStep i) acc) =
      applyVotes (alookup k acc) (votesAt wls i k) := by
  induction wls generalizing acc with
  | nil => simp [votesAt, applyVotes]
  | cons wl t ih =>
    simp only [List.foldl_cons, votesAt, List.filterMap_cons]
    cases hg : wl.1.get? i with
    | none =>
      have hstep : bwStep i acc wl = acc := by
        unfold bwStep
        rw [hg]
      have hvote : voteAtOf i k wl = none := by
        unfold voteAtOf
        rw [hg]
      rw [hstep, hvote, ih]
      simp [votesAt]
    | some w =>
      by_cases hw : pyStrip w = []
      · have hstep : bwStep i acc wl = acc := by
          unfold bwStep
          rw [hg]
          simp [hw]
        have hvote : voteAtOf i k wl = none := by
          unfold voteAtOf
          rw [hg]
          simp [hw]
        rw [hstep, hvote, ih]
        simp [votesAt]
      · have hstep : bwStep i acc wl = addVote acc (pyStrip w) wl.2 := by
          unfold bwStep
          rw [hg]
          simp [hw]
        rw [hstep, ih]
        by_cases hk : lowerStr (pyStrip w) = k
        · have hvote : voteAtOf i k wl = some (pyStrip w, wl.2) := by
            unfold voteAtOf
            rw [hg]
            simp [hw, hk]
          rw [hvote, alookup_addVote, if_pos hk]
          simp [votesAt, applyVotes]
        · have hvote : voteAtOf i k wl = none := by
            unfold voteAtOf
            rw [hg]
            simp [hw, hk]
          rw [hvote, alookup_addVote, if_neg hk]
          simp [votesAt]

/-- A first vote establishes the aggregation invariant. -/
theorem voteStep_inv_fresh (w : Str) (conf : ℚ) :
    VoteInv (voteStep none w conf) [(w, conf)] := by
  have hv : voteStep none w conf =
      if (0 : ℕ) < alphaCount w then ⟨w, 0 + conf, alphaCount w⟩
      else ⟨w, 0 + conf, 0⟩ := rfl
  rw [hv]
  by_cases hac : (0 : ℕ) < alphaCount w
  · rw [if_pos hac]
    unfold VoteInv
    simp
  · rw [if_neg hac]
    have h0 : alphaCount w = 0 := Nat.eq_zero_of_not_pos hac
    unfold VoteInv
    simp [h0]

/-- One more vote preserves the aggregation invariant. -/
theorem voteStep_inv_step (e : VoteEntry) (pre : List (Str × ℚ)) (w : Str)
    (conf : ℚ) (h : VoteInv e pre) :
    VoteInv (voteStep (some e) w conf) (pre ++ [(w, conf)]) := by
  obtain ⟨h1, h2, h3, h4⟩ := h
  have hv : voteStep (some e) w conf =
      if e.alpha_count < alphaCount w then ⟨w, e.score + conf, alphaCount w⟩
      else ⟨e.word, e.score + conf, e.alpha_count⟩ := rfl
  rw [hv]
  by_cases hac : e.alpha_count < alphaCount w
  · rw [if_pos hac]
    unfold VoteInv
    refine ⟨by simp, rfl, ?_, by simp [h4]⟩
    intro w2 hw2
    rcases (by simpa using hw2 : w2 ∈ pre.map Prod.fst ∨ w2 = w) with hin | hend
    · exact le_of_lt (lt_of_le_of_lt (h3 w2 hin) hac)
    · subst hend
      exact le_refl _
  · rw [if_neg hac]
    unfold VoteInv
    refine ⟨by simp [h1], h2, ?_, by simp [h4]⟩
    intro w2 hw2
    rcases (by simpa using hw2 : w2 ∈ pre.map Prod.fst ∨ w2 = w) with hin | hend
    · exact h3 w2 hin
    · subst hend
      exact Nat.le_of_not_lt hac

/-- Folding further votes from an invariant-satisfying entry preserves the
invariant over the concatenated vote list. -/
theorem applyVotes_inv (votes : List (Str × ℚ)) :
    ∀ (e0 : VoteEntry) (pre : List (Str × ℚ)), VoteInv e0 pre →
      ∀ e, applyVotes (some e0) votes = some e → VoteInv e (pre ++ votes) := by
  induction votes with
  | nil =>
    intro e0 pre hpre e he
    simp only [applyVotes, List.foldl_nil, Option.some.injEq] at he
    subst he
    simpa using hpre
  | cons v t ih =>
    intro e0 pre hpre e he
    simp only [applyVotes, List.foldl_cons] at he
    have hstep := voteStep_inv_step e0 pre v.1 v.2 hpre
    have := ih (voteStep (some e0) v.1 v.2) (pre ++ [(v.1, v.2)]) hstep e
      (by simpa [applyVotes] using he)
    simpa [List.append_assoc] using this

/-- The entry produced by a nonempty vote list satisfies the aggregation
invariant over that list. -/
theorem applyVotes_none_inv (votes : List (Str × ℚ)) (e : VoteEntry)
    (h : applyVotes none votes = some e) : VoteInv e votes := by
  cases votes with
  | nil => simp [applyVotes] at h
  | cons v t =>
    simp only [applyVotes, List.foldl_cons] at h
    have := applyVotes_inv t (voteStep none v.1 v.2) [(v.1, v.2)]
      (voteStep_inv_fresh v.1 v.2) e (by simpa [applyVotes] using h)
    simpa using this

theorem voteKeyLt_irrefl (a : VoteEntry) : ¬ voteKeyLt a a := by
  unfold voteKeyLt
  simp

theorem voteKeyLt_asymm {a b : VoteEntry} (h1 : voteKeyLt a b)
    (h2 : voteKeyLt b a) : False := by
  unfold voteKeyLt at h1 h2
  rcases h1 with h1 | ⟨h1e, h1a⟩ <;> rcases h2 with h2 | ⟨h2e, h2a⟩
  · exact absurd h2 (not_lt.mpr (le_of_lt h1))
  · exact absurd h1 (by rw [h2e]; exact lt_irrefl _)
  · exact absurd h2 (by rw [h1e]; exact lt_irrefl _)
  · exact absurd h2a (not_lt.mpr (le_of_lt h1a))

/-- Python's `max` (first maximum wins) returns any element that strictly
dominates all the others in the `(score, alpha_count)` order. -/
theorem maxEntry_dominant (rest : List VoteEntry) :
    ∀ e0 winner : VoteEntry, winner ∈ e0 :: rest →
      (∀ other ∈ e0 :: rest, other ≠ winner → voteKeyLt other winner) →
      maxEntry e0 rest = winner := by
  induction rest with
  | nil =>
    intro e0 winner hw _
    simp only [List.mem_singleton] at hw
    simp [maxEntry, hw]
  | cons v t ih =>
    intro e0 winner hw hdom
    have step : maxEntry e0 (v :: t) =
        maxEntry (if voteKeyLt e0 v then v else e0) t := by
      simp [maxEntry]
    rw [step]
    apply ih
    · by_cases he : winner = e0
      · subst he
        have hnlt : ¬ voteKeyLt winner v := by
          intro hlt
          by_cases hv : v = winner
          · subst hv
            exact voteKeyLt_irrefl _ hlt
          · exact voteKeyLt_asymm hlt (hdom v (by simp) hv)
        simp [if_neg hnlt]
      · rcases (by simpa using hw : winner = e0 ∨ winner = v ∨ winner ∈ t) with
          h1 | h2 | h3
        · exact absurd h1 he
        · subst h2
          have : voteKeyLt e0 winner :=
            hdom e0 (by simp) (fun hcontra => he hcontra.symm)
          simp [if_pos this]
        · simp [h3]
    · intro other hother hne
      rcases (by simpa using hother : other = (if voteKeyLt e0 v then v else e0) ∨
          other ∈ t) with h1 | h2
      · subst h1
        by_cases hc : voteKeyLt e0 v
        · rw [if_pos hc] at hne ⊢
          exact hdom v (by simp) hne
        · rw [if_neg hc] at hne ⊢
          exact hdom e0 (by simp) hne
      · exact hdom other (by simp [h2]) hne

/-- C3: in word-position voting, each `weighted` entry aggregates exactly
its key's case-insensitive votes — its score is the confidence sum of the
group, its surface form is a voted variant of maximal alphabetic count —
the emitted word is the entry that strictly dominates the others in the
`(score, alpha_count)` order, and on the three single-line results
`("cat sat mat", 0.9)`, `("cat sit mat", 0.6)`, `("car sat mat", 0.4)` the
fused line is `"cat sat mat"`. -/
theorem word_position_voting (wls : List (List Str × ℚ)) (i : ℕ) (key : Str)
    (e : VoteEntry) (h : alookup key (buildWeighted wls i) = some e) :
    (e.word ∈ (votesAt wls i key).map Prod.fst
     ∧ alphaCount e.word = e.alpha_count
     ∧ (∀ w ∈ (votesAt wls i key).map Prod.fst, alphaCount w ≤ e.alpha_count)
     ∧ e.score = ((votesAt wls i key).map Prod.snd).sum)
    ∧ (∀ (e0 winner : VoteEntry) (rest : List VoteEntry),
        winner ∈ e0 :: rest →
        (∀ other ∈ e0 :: rest, other ≠ winner → voteKeyLt other winner) →
        maxEntry e0 rest = winner)
    ∧ _vote_words
        [(str "cat sat mat", 9/10), (str "cat sit mat", 6/10), (str "car sat mat", 4/10)]
        = str "cat sat mat" := by
  refine ⟨?_, ?_, ?_⟩
  · have hb := alookup_bwStep_foldl wls i [] key
    simp only [alookup] at hb
    unfold buildWeighted at h
    rw [hb] at h
    exact applyVotes_none_inv _ _ h
  · intro e0 winner rest hwin hdom
    exact maxEntry_dominant rest e0 winner hwin hdom
  · simp +decide only [_vote_words, buildWeighted, addVote, maxEntry, voteKeyLt,
      alookup, aupdate, votesAt, pySplit, pySplitGo, pyStrip, lowerStr, pyToLower,
      alphaCount, isAsciiAlpha, isPySpace, List.range, List.intercalate, str,
      List.filterMap, List.foldl, List.map, List.get?, List.reverse,
      List.dropWhile, List.filter, List.intersperse, Option.getD]
    norm_num

/-- Witness for C3: the fused line of the claim's scenario, via the theorem
instantiated at a concrete one-word voting problem. -/
theorem word_position_voting_witness :
    _vote_words
      [(str "cat sat mat", 9/10), (str "cat sit mat", 6/10), (str "car sat mat", 4/10)]
      = str "cat sat mat" :=
  (word_position_voting [([str "cat"], 1)] 0 (str "cat") ⟨str "cat", 0 + 1, 3⟩
    (by rfl)).2.2

end Claims

namespace PostIdem

open OCRService

/-- `UInt32` order reflects to `ℕ`. -/
theorem uint32_le_iff (a b : UInt32) : a ≤ b ↔ a.toNat ≤ b.toNat := by
  rw [UInt32.le_def, BitVec.le_def]
  rfl

/-- `Char` equality reflects to code points. -/
theorem char_eq_iff (a b : Char) : a = b ↔ a.toNat = b.toNat := by
  constructor
  · intro h
    rw [h]
  · intro h
    apply Char.eq_of_val_eq
    apply UInt32.eq_of_toBitVec_eq
    apply BitVec.eq_of_toNat_eq
    exact h

/-- `Char` order reflects to code points. -/
theorem char_le_iff (a b : Char) : a ≤ b ↔ a.toNat ≤ b.toNat := by
  rw [Char.le_def, uint32_le_iff]
  exact Iff.rfl

/-- Code point of the lowercased character. -/
theorem pyToLower_toNat (c : Char) :
    (pyToLower c).toNat =
      if 65 ≤ c.toNat ∧ c.toNat ≤ 90 then c.toNat + 32 else c.toNat := by
  unfold pyToLower
  by_cases h : 'A' ≤ c ∧ c ≤ 'Z'
  · obtain ⟨h1, h2⟩ := h
    have ha : 65 ≤ c.toNat := (char_le_iff 'A' c).mp h1
    have hb : c.toNat ≤ 90 := (char_le_iff c 'Z').mp h2
    rw [if_pos ⟨h1, h2⟩, if_pos ⟨ha, hb⟩]
    have hv : (c.toNat + 32).isValidChar := by
      left
      omega
    simp only [Char.ofNat, dif_pos hv]
    show (BitVec.ofNatLt (c.toNat + 32) _).toNat = c.toNat + 32
    exact BitVec.toNat_ofNatLt _ _
  · rw [if_neg h, if_neg ?_]
    intro hcontra
    exact h ⟨(char_le_iff 'A' c).mpr hcontra.1, (char_le_iff c 'Z').mpr hcontra.2⟩

theorem isPySpace_iff (c : Char) :
    isPySpace c = true ↔
      (c.toNat = 32 ∨ c.toNat = 9 ∨ c.toNat = 10 ∨ c.toNat = 13 ∨
       c.toNat = 11 ∨ c.toNat = 12) := by
  unfold isPySpace
  simp only [Bool.or_eq_true, decide_eq_true_eq]
  rw [char_eq_iff c ' ', char_eq_iff c '\t', char_eq_iff c '\n',
    char_eq_iff c '\x0d', char_eq_iff c '\x0b', char_eq_iff c '\x0c']
  norm_num [show (' ' : Char).toNat = 32 from rfl, show ('\t' : Char).toNat = 9 from rfl,
    show ('\n' : Char).toNat = 10 from rfl, show ('\x0d' : Char).toNat = 13 from rfl,
    show ('\x0b' : Char).toNat = 11 from rfl, show ('\x0c' : Char).toNat = 12 from rfl]
  tauto

theorem isAsciiAlnum_iff (c : Char) :
    isAsciiAlnum c = true ↔
      ((97 ≤ c.toNat ∧ c.toNat ≤ 122) ∨ (65 ≤ c.toNat ∧ c.toNat ≤ 90) ∨
       (48 ≤ c.toNat ∧ c.toNat ≤ 57)) := by
  unfold isAsciiAlnum
  simp only [Bool.or_eq_true, decide_eq_true_eq]
  rw [char_le_iff 'a' c, char_le_iff c 'z', char_le_iff 'A' c, char_le_iff c 'Z',
    char_le_iff '0' c, char_le_iff c '9']
  norm_num [show ('a' : Char).toNat = 97 from rfl, show ('z' : Char).toNat = 122 from rfl,
    show ('A' : Char).toNat = 65 from rfl, show ('Z' : Char).toNat = 90 from rfl,
    show ('0' : Char).toNat = 48 from rfl, show ('9' : Char).toNat = 57 from rfl]
  tauto

theorem isAsciiAlpha_iff (c : Char) :
    isAsciiAlpha c = true ↔
      ((97 ≤ c.toNat ∧ c.toNat ≤ 122) ∨ (65 ≤ c.toNat ∧ c.toNat ≤ 90)) := by
  unfold isAsciiAlpha
  simp only [Bool.or_eq_true, decide_eq_true_eq]
  rw [char_le_iff 'a' c, char_le_iff c 'z', char_le_iff 'A' c, char_le_iff c 'Z']
  norm_num [show ('a' : Char).toNat = 97 from rfl, show ('z' : Char).toNat = 122 from rfl,
    show ('A' : Char).toNat = 65 from rfl, show ('Z' : Char).toNat = 90 from rfl]

theorem isWordChar_iff (c : Char) :
    isWordChar c = true ↔
      ((97 ≤ c.toNat ∧ c.toNat ≤ 122) ∨ (65 ≤ c.toNat ∧ c.toNat ≤ 90) ∨
       (48 ≤ c.toNat ∧ c.toNat ≤ 57) ∨ c.toNat = 95) := by
  unfold isWordChar
  simp only [Bool.or_eq_true, decide_eq_true_eq]
  rw [isAsciiAlnum_iff, char_eq_iff c '_']
  norm_num [show ('_' : Char).toNat = 95 from rfl]
  tauto

/-- Lowercasing does not change whitespace-ness. -/
theorem isPySpace_pyToLower (c : Char) : isPySpace (pyToLower c) = isPySpace c := by
  cases hsp : isPySpace c with
  | true =>
    rw [isPySpace_iff] at hsp
    apply (isPySpace_iff _).mpr
    rw [pyToLower_toNat]
    split_ifs <;> omega
  | false =>
    have hsp2 : ¬ (isPySpace c = true) := by rw [hsp]; simp
    rw [isPySpace_iff] at hsp2
    apply Bool.eq_false_iff.mpr
    intro hcon
    rw [isPySpace_iff] at hcon
    rw [pyToLower_toNat] at hcon
    split_ifs at hcon <;> omega

/-- Lowercasing does not change word-character-ness. -/
theorem isWordChar_pyToLower (c : Char) : isWordChar (pyToLower c) = isWordChar c := by
  cases hsp : isWordChar c with
  | true =>
    rw [isWordChar_iff] at hsp
    apply (isWordChar_iff _).mpr
    rw [pyToLower_toNat]
    split_ifs <;> omega
  | false =>
    have hsp2 : ¬ (isWordChar c = true) := by rw [hsp]; simp
    rw [isWordChar_iff] at hsp2
    apply Bool.eq_false_iff.mpr
    intro hcon
    rw [isWordChar_iff] at hcon
    rw [pyToLower_toNat] at hcon
    split_ifs at hcon <;> omega

/-- Lowercasing does not change alphanumeric-ness. -/
theorem isAsciiAlnum_pyToLower (c : Char) :
    isAsciiAlnum (pyToLower c) = isAsciiAlnum c := by
  cases hsp : isAsciiAlnum c with
  | true =>
    rw [isAsciiAlnum_iff] at hsp
    apply (isAsciiAlnum_iff _).mpr
    rw [pyToLower_toNat]
    split_ifs <;> omega
  | false =>
    have hsp2 : ¬ (isAsciiAlnum c = true) := by rw [hsp]; simp
    rw [isAsciiAlnum_iff] at hsp2
    apply Bool.eq_false_iff.mpr
    intro hcon
    rw [isAsciiAlnum_iff] at hcon
    rw [pyToLower_toNat] at hcon
    split_ifs at hcon <;> omega

/-- Lowercasing does not change punctuation-class-ness. -/
theorem isPunctClass_pyToLower (c : Char) :
    isPunctClass (pyToLower c) = isPunctClass c := by
  unfold isPunctClass
  rw [isPySpace_pyToLower, isAsciiAlnum_pyToLower]

/-- The pair constraint of `WOk`. -/
theorem wok_tail {c : Char} {t : Str} (h : WOk (c :: t)) : WOk t :=
  ⟨fun hm => h.1 (List.mem_cons_of_mem _ hm), h.2.tail⟩

theorem collapseGo_sp_true {c : Char} (hc : isSpTab c = true) (t : Str) :
    collapseGo true (c :: t) = collapseGo true t := by
  simp [collapseGo, hc]

theorem collapseGo_sp_false {c : Char} (hc : isSpTab c = true) (t : Str) :
    collapseGo false (c :: t) = ' ' :: collapseGo true t := by
  simp [collapseGo, hc]

theorem collapseGo_nonsp {c : Char} (hc : isSpTab c = false) (b : Bool) (t : Str) :
    collapseGo b (c :: t) = c :: collapseGo false t := by
  simp [collapseGo, hc]

/-- After skipping a run, the first character the collapsing scanner emits
in run state is not a space or tab. -/
theorem collapseGo_true_head (t : Str) (c' : Char)
    (h : (collapseGo true t).head? = some c') : isSpTab c' = false := by
  induction t with
  | nil => simp [collapseGo] at h
  | cons c t ih =>
    by_cases hc : isSpTab c = true
    · rw [collapseGo_sp_true hc] at h
      exact ih h
    · have hc2 : isSpTab c = false := by simpa using hc
      rw [collapseGo_nonsp hc2] at h
      simp only [List.head?_cons, Option.some.injEq] at h
      subst h
      exact hc2

/-- The whitespace-collapsing substitution establishes `WOk`. -/
theorem wok_collapseGo (s : Str) : ∀ b, WOk (collapseGo b s) := by
  induction s with
  | nil => intro b; exact ⟨by simp [collapseGo], by simp [collapseGo]⟩
  | cons c t ih =>
    intro b
    by_cases hc : isSpTab c = true
    · cases b with
      | true =>
        rw [collapseGo_sp_true hc]
        exact ih true
      | false =>
        rw [collapseGo_sp_false hc]
        refine ⟨?_, ?_⟩
        · intro hm
          rcases List.mem_cons.mp hm with h1 | h1
          · exact absurd h1.symm (by decide)
          · exact (ih true).1 h1
        · rw [List.chain'_cons']
          refine ⟨?_, (ih true).2⟩
          intro y hy hcon
          have := collapseGo_true_head t y hy
          rw [hcon.2] at this
          simp [isSpTab] at this
    · have hc2 : isSpTab c = false := by simpa using hc
      rw [collapseGo_nonsp hc2]
      refine ⟨?_, ?_⟩
      · intro hm
        rcases List.mem_cons.mp hm with h1 | h1
        · subst h1
          simp [isSpTab] at hc2
        · exact (ih false).1 h1
      · rw [List.chain'_cons']
        refine ⟨?_, (ih false).2⟩
        intro y hy hcon
        rw [hcon.1] at hc2
        simp [isSpTab] at hc2

/-- On a `WOk` string the collapsing scanner is the identity (and in run
state too, when the head is not a space or tab). -/
theorem collapseGo_id (s : Str) (h : WOk s) :
    collapseGo false s = s ∧
      ((∀ x ∈ s.head?, isSpTab x = false) → collapseGo true s = s) := by
  induction s with
  | nil => exact ⟨rfl, fun _ => rfl⟩
  | cons c t ih =>
    have iht := ih (wok_tail h)
    by_cases hc : isSpTab c = true
    · have hcsp : c = ' ' := by
        have hnt : c ≠ '\t' := fun hcon => h.1 (by simp [hcon])
        rcases (by simpa [isSpTab] using hc : c = ' ' ∨ c = '\t') with h1 | h1
        · exact h1
        · exact absurd h1 hnt
      constructor
      · rw [collapseGo_sp_false hc, hcsp]
        have hthead : ∀ x ∈ t.head?, isSpTab x = false := by
          intro x hx
          cases t with
          | nil => simp at hx
          | cons d t2 =>
            simp only [List.head?_cons, Option.mem_def, Option.some.injEq] at hx
            have hch := List.chain'_cons'.mp h.2
            have hpair := hch.1 d (by simp)
            have hxt : d ≠ '\t' := fun hcon => h.1 (by simp [hcon])
            have hxsp : d ≠ ' ' := fun hcon => hpair ⟨hcsp, hcon⟩
            rw [← hx]
            simp [isSpTab, hxsp, hxt]
        rw [iht.2 hthead]
      · intro hx
        have := hx c (by simp)
        rw [hc] at this
        simp at this
    · have hc2 : isSpTab c = false := by simpa using hc
      refine ⟨?_, fun _ => ?_⟩ <;>
        rw [collapseGo_nonsp hc2, iht.1]

/-- `collapseSpaces` is the identity on `WOk` strings. -/
theorem collapseSpaces_id (s : Str) (h : WOk s) : collapseSpaces s = s :=
  (collapseGo_id s h).1

/-- A successful match resumes at a suffix of the input. -/
theorem punctMatchAt_suffix (s rest : Str) (prev : Char)
    (h : punctMatchAt s = some (rest, prev)) : rest.IsSuffix s := by
  unfold punctMatchAt at h
  cases hd : s.dropWhile isPySpace with
  | nil => rw [hd] at h; simp at h
  | cons c r2 =>
    rw [hd] at h
    dsimp only at h
    by_cases hpc : isPunctClass c = true
    · rw [if_pos hpc] at h
      by_cases hr3 : r2.dropWhile isPySpace = []
      · rw [if_pos hr3] at h
        simp only [Option.some.injEq, Prod.mk.injEq] at h
        obtain ⟨hrest, _⟩ := h
        subst hrest
        exact List.nil_suffix
      · rw [if_neg hr3] at h
        cases hsplit : splitLastNl (r2.takeWhile isPySpace) with
        | none => rw [hsplit] at h; simp at h
        | some p =>
          rw [hsplit] at h
          obtain ⟨v, tail⟩ := p
          simp only [Option.some.injEq, Prod.mk.injEq] at h
          obtain ⟨hrest, _⟩ := h
          subst hrest
          have hw2 : r2.takeWhile isPySpace = v ++ '\n' :: tail :=
            splitLastNl_eq _ _ _ hsplit
          have hsfx : (c :: r2).IsSuffix s := by
            rw [← hd]
            exact List.dropWhile_suffix _
          refine List.IsSuffix.trans ?_ hsfx
          refine List.IsSuffix.trans ?_ (List.suffix_cons c r2)
          refine ⟨v, ?_⟩
          conv_rhs => rw [← List.takeWhile_append_dropWhile (p := isPySpace) (l := r2)]
          rw [hw2]
          simp
    · rw [if_neg hpc] at h
      simp at h

/-- An alphanumeric character is a word character. -/
theorem alnum_word {c : Char} (h : isAsciiAlnum c = true) : isWordChar c = true := by
  unfold isWordChar
  rw [h]
  rfl

/-- An alphanumeric character is not whitespace. -/
theorem alnum_not_space {c : Char} (h : isAsciiAlnum c = true) : isPySpace c = false := by
  rw [isAsciiAlnum_iff] at h
  cases hs : isPySpace c with
  | false => rfl
  | true => rw [isPySpace_iff] at hs; omega

/-- An alphanumeric character is not in the punctuation class. -/
theorem alnum_not_punct {c : Char} (h : isAsciiAlnum c = true) : isPunctClass c = false := by
  unfold isPunctClass
  rw [h]
  rfl

/-- A word character is not whitespace. -/
theorem word_not_space {c : Char} (h : isWordChar c = true) : isPySpace c = false := by
  rw [isWordChar_iff] at h
  cases hs : isPySpace c with
  | false => rfl
  | true => rw [isPySpace_iff] at hs; omega

/-- A whitespace character is not a word character. -/
theorem space_not_word {c : Char} (h : isPySpace c = true) : isWordChar c = false := by
  cases hw : isWordChar c with
  | false => rfl
  | true => rw [word_not_space hw] at h; exact Bool.noConfusion h

theorem word_ne_nl {c : Char} (h : isWordChar c = true) : c ≠ '\n' := by
  intro hc
  rw [hc] at h
  exact absurd h (by decide)

theorem word_ne_space {c : Char} (h : isWordChar c = true) : c ≠ ' ' := by
  intro hc
  rw [hc] at h
  exact absurd h (by decide)

theorem word_ne_tab {c : Char} (h : isWordChar c = true) : c ≠ '\t' := by
  intro hc
  rw [hc] at h
  exact absurd h (by decide)

/-- Only a newline lowercases to a newline. -/
theorem pyToLower_eq_nl {c : Char} (h : pyToLower c = '\n') : c = '\n' := by
  have hn := congrArg Char.toNat h
  rw [pyToLower_toNat] at hn
  rw [char_eq_iff]
  simp only [show ('\n' : Char).toNat = 10 from rfl] at hn ⊢
  split_ifs at hn <;> omega

theorem lowerStr_nil : lowerStr [] = [] := rfl

theorem lowerStr_cons (c : Char) (t : Str) :
    lowerStr (c :: t) = pyToLower c :: lowerStr t := rfl

theorem lowerStr_length (s : Str) : (lowerStr s).length = s.length :=
  List.length_map s pyToLower

theorem lowerStr_append (a b : Str) : lowerStr (a ++ b) = lowerStr a ++ lowerStr b :=
  List.map_append pyToLower a b

theorem lowerStr_take (n : ℕ) (s : Str) : lowerStr (s.take n) = (lowerStr s).take n :=
  List.map_take pyToLower s n

theorem lowerStr_drop (n : ℕ) (s : Str) : lowerStr (s.drop n) = (lowerStr s).drop n :=
  List.map_drop pyToLower s n

theorem lowerStr_eq_nil_iff (s : Str) : lowerStr s = [] ↔ s = [] := by
  cases s <;> simp [lowerStr]

theorem getLastD_map (f : Char → Char) (l : Str) (d : Char) :
    (l.map f).getLastD (f d) = f (l.getLastD d) := by
  induction l generalizing d with
  | nil => rfl
  | cons x xs ih =>
    rw [List.map_cons, List.getLastD_cons, List.getLastD_cons]
    exact ih x

theorem getLastD_irrel {l : Str} (h : l ≠ []) (a b : Char) :
    l.getLastD a = l.getLastD b := by
  cases l with
  | nil => exact absurd rfl h
  | cons x xs => rfl

/-- Alphanumeric-ness of all characters transfers back from the lowercase
form of a string. -/
theorem alnum_lift {a : Str} (h : ∀ y ∈ lowerStr a, isAsciiAlnum y = true) :
    ∀ x ∈ a, isAsciiAlnum x = true := by
  intro x hx
  have := h (pyToLower x) (List.mem_map_of_mem pyToLower hx)
  rwa [isAsciiAlnum_pyToLower] at this

/-- The lowercase form of every replacement for a match of `patLower`. -/
theorem applyRepl_lower {m patLower : Str} (r : ReplRule) (hm : lowerStr m = patLower) :
    lowerStr (applyRepl r m) = replLower patLower r := by
  cases r with
  | const w => rfl
  | keepFirst suf =>
    show lowerStr (m.take 1 ++ suf) = patLower.take 1 ++ lowerStr suf
    rw [lowerStr_append, lowerStr_take, hm]

theorem isPrefB_iff : ∀ (u v : Str), isPrefB u v = true ↔ u <+: v
  | [], v => by
    simp only [isPrefB, true_iff]
    exact ⟨v, rfl⟩
  | a :: as, [] => by
    simp only [isPrefB, Bool.false_eq_true, false_iff]
    rintro ⟨r, hr⟩
    exact List.noConfusion hr
  | a :: as, b :: bs => by
    simp only [isPrefB, Bool.and_eq_true, decide_eq_true_eq, isPrefB_iff as bs]
    constructor
    · rintro ⟨rfl, r, rfl⟩
      exact ⟨r, rfl⟩
    · rintro ⟨r, hr⟩
      rw [List.cons_append, List.cons.injEq] at hr
      exact ⟨hr.1, r, hr.2⟩

theorem scOK_spec {p w : Str} (hs : scOK p w = true) (hwne : w ≠ []) :
    ∀ j, entryAt p j = true → ¬ (w <+: p.drop j) := by
  intro j hj hpre
  by_cases hjle : j ≤ p.length
  · have hall := (List.all_eq_true.mp hs) j (List.mem_range.mpr (by omega))
    rw [hj, (isPrefB_iff w (p.drop j)).mpr hpre] at hall
    exact Bool.noConfusion hall
  · have hd : p.drop j = [] := List.drop_eq_nil_of_le (by omega)
    rw [hd] at hpre
    obtain ⟨r, hr⟩ := hpre
    rw [List.append_eq_nil] at hr
    exact hwne hr.1

theorem matchFromB_nil_left (s : Str) : matchFromB [] s = nextNonWord s := by
  simp [matchFromB, lowerStr]

theorem matchFromB_cons (q0 : Char) (q1 : Str) (c : Char) (t : Str) :
    matchFromB (q0 :: q1) (c :: t) =
      (decide (pyToLower c = q0) && matchFromB q1 t) := by
  unfold matchFromB
  simp only [List.length_cons, List.take_succ_cons, List.drop_succ_cons, lowerStr_cons,
    List.cons.injEq]
  by_cases h1 : pyToLower c = q0 <;>
    by_cases h2 : lowerStr (t.take q1.length) = q1 <;>
      simp [h1, h2]

theorem noMatch_cons_eq (p : Str) (b : Bool) (c : Char) (t : Str) :
    noMatch p b (c :: t) =
      (!(decide (b = false) && occAt p (c :: t)) && noMatch p (isWordChar c) t) := rfl

/-- Scanning past a nonempty chunk: the scan state after it is the
word-character status of its last character. -/
theorem noMatch_append_tail (p : Str) :
    ∀ (a : Str) (b : Bool) (u : Str), a ≠ [] → noMatch p b (a ++ u) = true →
      noMatch p (isWordChar (a.getLastD 'x')) u = true := by
  intro a
  induction a with
  | nil => intro b u h; exact absurd rfl h
  | cons x xs ih =>
    intro b u _ h
    rw [List.cons_append, noMatch_cons_eq, Bool.and_eq_true] at h
    cases xs with
    | nil => simpa using h.2
    | cons y ys =>
      have h2 := ih (isWordChar x) u (by simp) h.2
      rw [List.getLastD_cons, getLastD_irrel (by simp : (y :: ys : Str) ≠ []) x 'x']
      exact h2

/-- A whole-word occurrence matched against an all-alphanumeric chunk must
swallow the chunk: the chunk's lowercase form starts the pattern. -/
theorem matchFromB_chunk :
    ∀ (w q u : Str), w ≠ [] → (∀ x ∈ w, isAsciiAlnum x = true) →
      matchFromB q (w ++ u) = true → lowerStr w <+: q := by
  intro w
  induction w with
  | nil => intro q u h; exact absurd rfl h
  | cons x xs ih =>
    intro q u _ hall h
    cases q with
    | nil =>
      rw [matchFromB_nil_left, List.cons_append] at h
      have hx : isWordChar x = true := alnum_word (hall x (by simp))
      simp [nextNonWord, hx] at h
    | cons q0 q1 =>
      rw [List.cons_append, matchFromB_cons, Bool.and_eq_true, decide_eq_true_eq] at h
      by_cases hxs : xs = []
      · subst hxs
        exact ⟨q1, by rw [lowerStr_cons, lowerStr_nil, h.1]; rfl⟩
      · obtain ⟨r, hr⟩ := ih q1 u hxs (fun z hz => hall z (List.mem_cons_of_mem x hz)) h.2
        exact ⟨r, by rw [lowerStr_cons, h.1, List.cons_append, hr]⟩

/-- Scanning an all-alphanumeric nonempty chunk: only the position at its
start can carry an occurrence, and the scan leaves in word state. -/
theorem noMatch_chunk (p : Str) :
    ∀ (w : Str) (b : Bool) (u : Str), w ≠ [] → (∀ x ∈ w, isAsciiAlnum x = true) →
      noMatch p b (w ++ u) =
        (!(decide (b = false) && occAt p (w ++ u)) && noMatch p true u) := by
  intro w
  induction w with
  | nil => intro b u h; exact absurd rfl h
  | cons x xs ih =>
    intro b u _ hall
    have hx : isWordChar x = true := alnum_word (hall x (by simp))
    by_cases hxs : xs = []
    · subst hxs
      simp only [List.cons_append, List.nil_append, noMatch_cons_eq, hx]
    · have ihx := ih true u hxs (fun z hz => hall z (List.mem_cons_of_mem x hz))
      simp [List.cons_append, noMatch_cons_eq, hx, ihx]

/-- Transfer of a whole-word occurrence backwards along one substitution:
an occurrence in the output either existed in the input, or its region
crosses a replacement chunk, in which case the replacement's lowercase
form starts the rest of the pattern at an admissible entry offset. -/
theorem rsub_matchFromB {patLower : Str} {rule : ReplRule}
    (hwne : replLower patLower rule ≠ [])
    (hww : ∀ y ∈ replLower patLower rule, isAsciiAlnum y = true) :
    ∀ {b : Bool} {u u' : Str}, Rsub patLower rule b u u' →
      ∀ q, matchFromB q u' = true →
        matchFromB q u = true ∨
          ∃ j, j ≤ q.length ∧ replLower patLower rule <+: q.drop j ∧
            (j = 0 → b = false) ∧ (0 < j → entryAt q j = true) := by
  intro b u u' h
  induction h with
  | nil b => intro q hq; exact Or.inl hq
  | copy b c t t' hnm hr ih =>
    intro q hq
    cases q with
    | nil =>
      rw [matchFromB_nil_left] at hq ⊢
      exact Or.inl (by simpa [nextNonWord] using hq)
    | cons q0 q1 =>
      rw [matchFromB_cons, Bool.and_eq_true, decide_eq_true_eq] at hq
      rcases ih q1 hq.2 with hin | ⟨j, hj1, hj2, hj3, hj4⟩
      · exact Or.inl (by rw [matchFromB_cons, hq.1, hin]; simp)
      · refine Or.inr ⟨j + 1, by simp only [List.length_cons]; omega, by simpa using hj2,
          by omega, ?_⟩
        intro _
        by_cases hj0 : j = 0
        · subst hj0
          have hc : isWordChar c = false := hj3 rfl
          have hq0 : isWordChar q0 = false := by
            rw [← hq.1, isWordChar_pyToLower]
            exact hc
          simp [entryAt, hq0]
        · obtain ⟨j2, rfl⟩ := Nat.exists_eq_succ_of_ne_zero hj0
          have := hj4 (by omega)
          simpa [entryAt] using this
  | repl m t t' hm hnw hr ih =>
    intro q hq
    have hlw : lowerStr (applyRepl rule m) = replLower patLower rule := applyRepl_lower rule hm
    have hchne : applyRepl rule m ≠ [] := by
      intro hc
      rw [hc] at hlw
      exact hwne hlw.symm
    have hchall : ∀ x ∈ applyRepl rule m, isAsciiAlnum x = true :=
      alnum_lift (by rw [hlw]; exact hww)
    have hpre := matchFromB_chunk (applyRepl rule m) q t' hchne hchall hq
    rw [hlw] at hpre
    exact Or.inr ⟨0, Nat.zero_le _, by simpa using hpre, fun _ => rfl,
      fun h0 => absurd h0 (Nat.lt_irrefl 0)⟩

/-- After one substitution, the scan finds no occurrence of the pattern
just substituted. -/
theorem rsub_noMatch_self {patLower : Str} {rule : ReplRule}
    (hwne : replLower patLower rule ≠ [])
    (hww : ∀ y ∈ replLower patLower rule, isAsciiAlnum y = true)
    (hsc : ∀ j, entryAt patLower j = true → ¬ (replLower patLower rule <+: patLower.drop j)) :
    ∀ {b : Bool} {u u' : Str}, Rsub patLower rule b u u' →
      noMatch patLower b u' = true := by
  intro b u u' h
  induction h with
  | nil b => rfl
  | copy b c t t' hnm hr ih =>
    rw [noMatch_cons_eq, Bool.and_eq_true]
    refine ⟨?_, ih⟩
    by_contra hcon
    have hAB : (decide (b = false) && occAt patLower (c :: t')) = true := by
      cases hab : (decide (b = false) && occAt patLower (c :: t')) with
      | true => rfl
      | false => exact absurd (by rw [hab]; rfl) hcon
    rw [Bool.and_eq_true, decide_eq_true_eq] at hAB
    obtain ⟨hb, hocc⟩ := hAB
    rw [occAt, Bool.and_eq_true, decide_eq_true_eq] at hocc
    rcases rsub_matchFromB hwne hww (Rsub.copy b c t t' hnm hr) patLower hocc.2 with
      hin | ⟨j, hj1, hj2, hj3, hj4⟩
    · exact hnm ⟨hb, by simp [occAt, hocc.1, hin]⟩
    · by_cases hj0 : j = 0
      · subst hj0
        exact hsc 0 rfl (by simpa using hj2)
      · exact hsc j (hj4 (Nat.pos_of_ne_zero hj0)) hj2
  | repl m t t' hm hnw hr ih =>
    have hlw : lowerStr (applyRepl rule m) = replLower patLower rule := applyRepl_lower rule hm
    have hchne : applyRepl rule m ≠ [] := by
      intro hc
      rw [hc] at hlw
      exact hwne hlw.symm
    have hchall : ∀ x ∈ applyRepl rule m, isAsciiAlnum x = true :=
      alnum_lift (by rw [hlw]; exact hww)
    rw [noMatch_chunk patLower (applyRepl rule m) false t' hchne hchall, Bool.and_eq_true]
    refine ⟨?_, ih⟩
    by_contra hcon
    have hAB : (decide (false = false) && occAt patLower (applyRepl rule m ++ t')) = true := by
      cases hab : (decide (false = false) && occAt patLower (applyRepl rule m ++ t')) with
      | true => rfl
      | false => exact absurd (by rw [hab]; rfl) hcon
    rw [Bool.and_eq_true] at hAB
    have hocc := hAB.2
    rw [occAt, Bool.and_eq_true, decide_eq_true_eq] at hocc
    have hpre := matchFromB_chunk (applyRepl rule m) patLower t' hchne hchall hocc.2
    rw [hlw] at hpre
    exact hsc 0 rfl (by simpa using hpre)

/-- One substitution with a different pattern preserves the absence of
occurrences, given the crossing side condition. -/
theorem rsub_noMatch_other {patLower : Str} {rule : ReplRule} {p : Str}
    (hwne : replLower patLower rule ≠ [])
    (hww : ∀ y ∈ replLower patLower rule, isAsciiAlnum y = true)
    (hpne : patLower ≠ [])
    (hplast : isWordChar (patLower.getLastD 'x') = true)
    (hsc : ∀ j, entryAt p j = true → ¬ (replLower patLower rule <+: p.drop j)) :
    ∀ {b : Bool} {u u' : Str}, Rsub patLower rule b u u' →
      noMatch p b u = true → noMatch p b u' = true := by
  intro b u u' h
  induction h with
  | nil b => intro _; rfl
  | copy b c t t' hnm hr ih =>
    intro hu
    rw [noMatch_cons_eq, Bool.and_eq_true] at hu ⊢
    obtain ⟨hu1, hu2⟩ := hu
    refine ⟨?_, ih hu2⟩
    by_contra hcon
    have hAB : (decide (b = false) && occAt p (c :: t')) = true := by
      cases hab : (decide (b = false) && occAt p (c :: t')) with
      | true => rfl
      | false => exact absurd (by rw [hab]; rfl) hcon
    rw [Bool.and_eq_true, decide_eq_true_eq] at hAB
    obtain ⟨hb, hocc⟩ := hAB
    rw [occAt, Bool.and_eq_true, decide_eq_true_eq] at hocc
    rcases rsub_matchFromB hwne hww (Rsub.copy b c t t' hnm hr) p hocc.2 with
      hin | ⟨j, hj1, hj2, hj3, hj4⟩
    · have hx : (decide (b = false) && occAt p (c :: t)) = true := by
        simp [occAt, hb, hocc.1, hin]
      rw [hx] at hu1
      exact Bool.noConfusion hu1
    · by_cases hj0 : j = 0
      · subst hj0
        exact hsc 0 rfl (by simpa using hj2)
      · exact hsc j (hj4 (Nat.pos_of_ne_zero hj0)) hj2
  | repl m t t' hm hnw hr ih =>
    intro hu
    have hmne : m ≠ [] := by
      intro hc
      rw [hc] at hm
      exact hpne hm.symm
    have hmlast : isWordChar (m.getLastD 'x') = true := by
      have hmap := getLastD_map pyToLower m 'x'
      rw [show pyToLower 'x' = 'x' from rfl] at hmap
      have hlast : pyToLower (m.getLastD 'x') = patLower.getLastD 'x' := by
        rw [← hmap, ← hm]
        rfl
      rw [← isWordChar_pyToLower, hlast]
      exact hplast
    have ht := noMatch_append_tail p m false t hmne hu
    rw [hmlast] at ht
    have ht' := ih ht
    have hlw : lowerStr (applyRepl rule m) = replLower patLower rule := applyRepl_lower rule hm
    have hchne : applyRepl rule m ≠ [] := by
      intro hc
      rw [hc] at hlw
      exact hwne hlw.symm
    have hchall : ∀ x ∈ applyRepl rule m, isAsciiAlnum x = true :=
      alnum_lift (by rw [hlw]; exact hww)
    rw [noMatch_chunk p (applyRepl rule m) false t' hchne hchall, Bool.and_eq_true]
    refine ⟨?_, ht'⟩
    by_contra hcon
    have hAB : (decide (false = false) && occAt p (applyRepl rule m ++ t')) = true := by
      cases hab : (decide (false = false) && occAt p (applyRepl rule m ++ t')) with
      | true => rfl
      | false => exact absurd (by rw [hab]; rfl) hcon
    rw [Bool.and_eq_true] at hAB
    have hocc := hAB.2
    rw [occAt, Bool.and_eq_true, decide_eq_true_eq] at hocc
    have hpre := matchFromB_chunk (applyRepl rule m) p t' hchne hchall hocc.2
    rw [hlw] at hpre
    exact hsc 0 rfl (by simpa using hpre)

theorem wordSubGo_nil (p : Str) (r : ReplRule) (b : Bool) :
    wordSubGo p r b [] = [] := by
  rw [wordSubGo]

theorem wordSubGo_cons_pos (p : Str) (r : ReplRule) (b : Bool) (c : Char) (t : Str)
    (h : b = false ∧ p ≠ [] ∧ lowerStr ((c :: t).take p.length) = p ∧
      nextNonWord ((c :: t).drop p.length) = true) :
    wordSubGo p r b (c :: t) =
      applyRepl r ((c :: t).take p.length) ++
        wordSubGo p r (isWordChar (((c :: t).take p.length).getLastD c))
          ((c :: t).drop p.length) := by
  rw [wordSubGo, dif_pos h]

theorem wordSubGo_cons_neg (p : Str) (r : ReplRule) (b : Bool) (c : Char) (t : Str)
    (h : ¬(b = false ∧ p ≠ [] ∧ lowerStr ((c :: t).take p.length) = p ∧
      nextNonWord ((c :: t).drop p.length) = true)) :
    wordSubGo p r b (c :: t) = c :: wordSubGo p r (isWordChar c) t := by
  rw [wordSubGo, dif_neg h]

/-- The scanner of one substitution realises the substitution relation. -/
theorem wordSubGo_rsub {patLower : Str} {rule : ReplRule}
    (hpne : patLower ≠ [])
    (hplast : isWordChar (patLower.getLastD 'x') = true) :
    ∀ (n : ℕ) (s : Str), s.length ≤ n → ∀ b,
      Rsub patLower rule b s (wordSubGo patLower rule b s) := by
  intro n
  induction n with
  | zero =>
    intro s hs b
    have hnil : s = [] := List.length_eq_zero.mp (Nat.le_zero.mp hs)
    subst hnil
    rw [wordSubGo_nil]
    exact Rsub.nil b
  | succ n ih =>
    intro s hs b
    cases s with
    | nil => rw [wordSubGo_nil]; exact Rsub.nil b
    | cons c t =>
      by_cases h : b = false ∧ patLower ≠ [] ∧
          lowerStr ((c :: t).take patLower.length) = patLower ∧
          nextNonWord ((c :: t).drop patLower.length) = true
      · rw [wordSubGo_cons_pos patLower rule b c t h]
        obtain ⟨hb, _, hmat, hnw⟩ := h
        subst hb
        have hplen : 1 ≤ patLower.length := List.length_pos.mpr hpne
        have hmne : (c :: t).take patLower.length ≠ [] := by
          intro hc
          have hlen := congrArg List.length hc
          simp only [List.length_take, List.length_cons, List.length_nil] at hlen
          omega
        have hstate : isWordChar (((c :: t).take patLower.length).getLastD c) = true := by
          rw [getLastD_irrel hmne c 'x']
          have hmap := getLastD_map pyToLower ((c :: t).take patLower.length) 'x'
          rw [show pyToLower 'x' = 'x' from rfl] at hmap
          have hlast : pyToLower (((c :: t).take patLower.length).getLastD 'x') =
              patLower.getLastD 'x' := by
            conv_rhs => rw [← hmat]
            exact hmap.symm
          rw [← isWordChar_pyToLower, hlast]
          exact hplast
        rw [hstate]
        have hdroplen : ((c :: t).drop patLower.length).length ≤ n := by
          simp only [List.length_drop, List.length_cons] at hs ⊢
          omega
        have hinner := ih ((c :: t).drop patLower.length) hdroplen true
        have hout := Rsub.repl ((c :: t).take patLower.length) ((c :: t).drop patLower.length)
          (wordSubGo patLower rule true ((c :: t).drop patLower.length)) hmat hnw hinner
        rwa [List.take_append_drop] at hout
      · rw [wordSubGo_cons_neg patLower rule b c t h]
        have hts : t.length ≤ n := by
          simp only [List.length_cons] at hs
          omega
        refine Rsub.copy b c t _ ?_ (ih t hts (isWordChar c))
        intro hcon
        obtain ⟨hb, hocc⟩ := hcon
        rw [occAt, Bool.and_eq_true, decide_eq_true_eq] at hocc
        obtain ⟨hpne2, hmf⟩ := hocc
        rw [matchFromB, Bool.and_eq_true, decide_eq_true_eq] at hmf
        exact h ⟨hb, hpne2, hmf.1, hmf.2⟩

/-- One full substitution pass realises the relation (initial state: no
previous word character). -/
theorem wordSub_rsub {patLower : Str} {rule : ReplRule}
    (hpne : patLower ≠ []) (hplast : isWordChar (patLower.getLastD 'x') = true) (s : Str) :
    Rsub patLower rule false s (wordSub patLower rule s) :=
  wordSubGo_rsub hpne hplast s.length s le_rfl false

/-- On occurrence-free input, one substitution is the identity. -/
theorem wordSubGo_id (p : Str) (r : ReplRule) :
    ∀ (n : ℕ) (s : Str), s.length ≤ n → ∀ b, noMatch p b s = true →
      wordSubGo p r b s = s := by
  intro n
  induction n with
  | zero =>
    intro s hs b _
    have hnil : s = [] := List.length_eq_zero.mp (Nat.le_zero.mp hs)
    subst hnil
    exact wordSubGo_nil p r b
  | succ n ih =>
    intro s hs b hnm
    cases s with
    | nil => exact wordSubGo_nil p r b
    | cons c t =>
      rw [noMatch_cons_eq, Bool.and_eq_true] at hnm
      obtain ⟨h1, h2⟩ := hnm
      have hts : t.length ≤ n := by
        simp only [List.length_cons] at hs
        omega
      have hneg : ¬(b = false ∧ p ≠ [] ∧ lowerStr ((c :: t).take p.length) = p ∧
          nextNonWord ((c :: t).drop p.length) = true) := by
        intro hcon
        obtain ⟨hb, hpne2, hmat, hnw⟩ := hcon
        have hx : (decide (b = false) && occAt p (c :: t)) = true := by
          simp [occAt, matchFromB, hb, hpne2, hmat, hnw]
        rw [hx] at h1
        exact Bool.noConfusion h1
      rw [wordSubGo_cons_neg p r b c t hneg, ih t hts (isWordChar c) h2]

/-- Rule conditions extracted from the Boolean check. -/
theorem ruleOKb_spec {pr : Str × ReplRule} (h : ruleOKb pr = true) :
    pr.1 ≠ [] ∧ replLower pr.1 pr.2 ≠ [] ∧
      (∀ y ∈ replLower pr.1 pr.2, isAsciiAlnum y = true) ∧
      isWordChar (pr.1.getLastD 'x') = true ∧ isAsciiAlnum (pr.1.headD 'x') = true ∧
      ('\n' ∉ pr.1) := by
  unfold ruleOKb at h
  simp only [Bool.and_eq_true, decide_eq_true_eq, List.all_eq_true] at h
  refine ⟨h.1.1.1.1.1, h.1.1.1.1.2, fun y hy => h.1.1.1.2 y hy, h.1.1.2, h.1.2, ?_⟩
  intro hc
  have hx := h.2 _ hc
  simp at hx

/-- The corrections table satisfies the rule shape conditions. -/
theorem corrections_rulesOK : corrections.all ruleOKb = true := by decide

/-- No replacement word of the table can seed an occurrence of any pattern
of the table. -/
theorem corrections_pairsOK :
    corrections.all (fun a => corrections.all fun b => scOK a.1 (replLower b.1 b.2)) = true := by
  decide

/-- Folding the substitutions of the table: the fold ends occurrence-free
for every pattern of the table, given that the patterns already applied
are occurrence-free. -/
theorem foldClean :
    ∀ (rest done : List (Str × ReplRule)) (s : Str),
      done ++ rest = corrections →
      (∀ pr ∈ done, noMatch pr.1 false s = true) →
      ∀ pr ∈ corrections,
        noMatch pr.1 false (rest.foldl (fun t q => wordSub q.1 q.2 t) s) = true := by
  intro rest
  induction rest with
  | nil =>
    intro done s hd hdone pr hpr
    rw [List.append_nil] at hd
    subst hd
    exact hdone pr hpr
  | cons q rest ih =>
    intro done s hd hdone pr hpr
    have hqmem : q ∈ corrections := by
      rw [← hd]
      simp
    have hqok := ruleOKb_spec ((List.all_eq_true.mp corrections_rulesOK) q hqmem)
    obtain ⟨hqpne, hqwne, hqww, hqlast, hqhead, hqnl⟩ := hqok
    have hrel := @wordSub_rsub q.1 q.2 hqpne hqlast s
    have hnew : ∀ pr2 ∈ done ++ [q], noMatch pr2.1 false (wordSub q.1 q.2 s) = true := by
      intro pr2 hpr2
      have hpr2mem : pr2 ∈ corrections := by
        rw [← hd]
        rcases List.mem_append.mp hpr2 with h1 | h1
        · exact List.mem_append.mpr (Or.inl h1)
        · simp only [List.mem_singleton] at h1
          subst h1
          simp
      have hpair := (List.all_eq_true.mp
        ((List.all_eq_true.mp corrections_pairsOK) pr2 hpr2mem)) q hqmem
      have hsc2 := scOK_spec hpair hqwne
      rcases List.mem_append.mp hpr2 with h1 | h1
      · exact rsub_noMatch_other hqwne hqww hqpne hqlast hsc2 hrel (hdone pr2 h1)
      · simp only [List.mem_singleton] at h1
        subst h1
        exact rsub_noMatch_self hqwne hqww hsc2 hrel
    have hd2 : (done ++ [q]) ++ rest = corrections := by
      rw [← hd]
      simp
    have hfin := ih (done ++ [q]) (wordSub q.1 q.2 s) hd2 hnew pr hpr
    rw [List.foldl_cons]
    exact hfin

/-- After the whole corrections chain, no pattern of the table has a
whole-word occurrence. -/
theorem applyCorrections_noMatch (s : Str) :
    ∀ pr ∈ corrections, noMatch pr.1 false (applyCorrections s) = true := by
  have hx := foldClean corrections [] s rfl (by intro pr h; simp at h)
  exact hx

/-- The corrections chain is the identity when no pattern of the table has
an occurrence. -/
theorem applyCorrections_id (s : Str)
    (h : ∀ pr ∈ corrections, noMatch pr.1 false s = true) :
    applyCorrections s = s := by
  unfold applyCorrections
  have main : ∀ (rest : List (Str × ReplRule)), (∀ pr ∈ rest, pr ∈ corrections) →
      rest.foldl (fun t q => wordSub q.1 q.2 t) s = s := by
    intro rest hsub
    induction rest with
    | nil => rfl
    | cons q rest ih =>
      rw [List.foldl_cons]
      have hid : wordSub q.1 q.2 s = s :=
        wordSubGo_id q.1 q.2 s.length s le_rfl false (h q (hsub q (by simp)))
      rw [hid]
      exact ih (fun pr hpr => hsub pr (List.mem_cons_of_mem q hpr))
  exact main corrections (fun pr hpr => hpr)

theorem wok_append_right {a u : Str} (h : WOk (a ++ u)) : WOk u := by
  induction a with
  | nil => exact h
  | cons x xs ih => exact ih (wok_tail h)

theorem mem_of_getLastOpt : ∀ {l : Str} {x : Char}, l.getLast? = some x → x ∈ l := by
  intro l
  induction l with
  | nil => intro x h; exact absurd h (by simp)
  | cons a as ih =>
    intro x h
    cases as with
    | nil =>
      simp only [List.getLast?_singleton, Option.some.injEq] at h
      subst h
      simp
    | cons b bs =>
      rw [List.getLast?_cons_cons] at h
      exact List.mem_cons_of_mem a (ih h)

/-- Adjacent characters of an all-alphanumeric string are never two
spaces. -/
theorem chain_of_alnum {w : Str} (hall : ∀ x ∈ w, isAsciiAlnum x = true) :
    List.Chain' (fun a b => ¬(a = ' ' ∧ b = ' ')) w := by
  induction w with
  | nil => exact List.chain'_nil
  | cons x xs ih =>
    rw [List.chain'_cons']
    refine ⟨?_, ih (fun z hz => hall z (List.mem_cons_of_mem x hz))⟩
    intro y hy hcon
    have hx := hall x (by simp)
    rw [hcon.1] at hx
    exact absurd hx (by decide)

/-- Along the substitution relation, the output's head is the input's head
or an alphanumeric character. -/
theorem rsub_head {patLower : Str} {rule : ReplRule}
    (hwne : replLower patLower rule ≠ [])
    (hww : ∀ y ∈ replLower patLower rule, isAsciiAlnum y = true) :
    ∀ {b : Bool} {u u' : Str}, Rsub patLower rule b u u' →
      u'.head? = u.head? ∨ ∃ h, u'.head? = some h ∧ isAsciiAlnum h = true := by
  intro b u u' h
  cases h with
  | nil b => exact Or.inl rfl
  | copy b c t t' hnm hr => exact Or.inl rfl
  | repl m t t' hm hnw hr =>
    have hlw := applyRepl_lower rule hm
    have hchne : applyRepl rule m ≠ [] := by
      intro hc
      rw [hc] at hlw
      exact hwne hlw.symm
    have hchall : ∀ x ∈ applyRepl rule m, isAsciiAlnum x = true :=
      alnum_lift (by rw [hlw]; exact hww)
    cases hch : applyRepl rule m with
    | nil => exact absurd hch hchne
    | cons x xs =>
      exact Or.inr ⟨x, rfl, hchall x (by rw [hch]; simp)⟩

/-- The substitution relation preserves the fixed points of the
whitespace-collapsing stage. -/
theorem rsub_wok {patLower : Str} {rule : ReplRule}
    (hpne : patLower ≠ [])
    (hwne : replLower patLower rule ≠ [])
    (hww : ∀ y ∈ replLower patLower rule, isAsciiAlnum y = true) :
    ∀ {b : Bool} {u u' : Str}, Rsub patLower rule b u u' → WOk u → WOk u' := by
  intro b u u' h
  induction h with
  | nil b => exact fun h => h
  | copy b c t t' hnm hr ih =>
    intro hw
    have hwt' := ih (wok_tail hw)
    refine ⟨?_, ?_⟩
    · intro hm
      rcases List.mem_cons.mp hm with h1 | h1
      · exact hw.1 (by rw [h1]; simp)
      · exact hwt'.1 h1
    · rw [List.chain'_cons']
      refine ⟨?_, hwt'.2⟩
      intro y hy hcon
      rcases rsub_head hwne hww hr with hh | ⟨h2, hh2, hh3⟩
      · rw [hh] at hy
        have hpair := (List.chain'_cons'.mp hw.2).1 y hy
        exact hpair hcon
      · rw [hh2] at hy
        simp only [Option.mem_def, Option.some.injEq] at hy
        subst hy
        rw [hcon.2] at hh3
        exact absurd hh3 (by decide)
  | repl m t t' hm hnw hr ih =>
    intro hw
    have hwt' := ih (wok_append_right hw)
    have hlw := applyRepl_lower rule hm
    have hchne : applyRepl rule m ≠ [] := by
      intro hc
      rw [hc] at hlw
      exact hwne hlw.symm
    have hchall : ∀ x ∈ applyRepl rule m, isAsciiAlnum x = true :=
      alnum_lift (by rw [hlw]; exact hww)
    refine ⟨?_, ?_⟩
    · intro hmem
      rcases List.mem_append.mp hmem with h1 | h1
      · exact absurd (hchall _ h1) (by decide)
      · exact hwt'.1 h1
    · refine List.Chain'.append (chain_of_alnum hchall) hwt'.2 ?_
      intro x hx y hy hcon
      have hxa := hchall x (mem_of_getLastOpt hx)
      rw [hcon.1] at hxa
      exact absurd hxa (by decide)

theorem rsub_nil_iff {patLower : Str} {rule : ReplRule}
    (hpne : patLower ≠ [])
    (hwne : replLower patLower rule ≠ []) :
    ∀ {b : Bool} {u u' : Str}, Rsub patLower rule b u u' → (u = [] ↔ u' = []) := by
  intro b u u' h
  cases h with
  | nil b => simp
  | copy b c t t' hnm hr => simp
  | repl m t t' hm hnw hr =>
    have hmne : m ≠ [] := by
      intro hc
      rw [hc] at hm
      exact hpne hm.symm
    have hlw := applyRepl_lower rule hm
    have hchne : applyRepl rule m ≠ [] := by
      intro hc
      rw [hc] at hlw
      exact hwne hlw.symm
    refine iff_of_false (fun hx => ?_) (fun hx => ?_)
    · exact hmne (List.append_eq_nil.mp hx).1
    · exact hchne (List.append_eq_nil.mp hx).1

/-- Along the substitution relation, leading whitespace is unchanged and
the remainders after it are again related. -/
theorem rsub_takeWhile {patLower : Str} {rule : ReplRule}
    (hpne : patLower ≠ [])
    (hphead : isAsciiAlnum (patLower.headD 'x') = true)
    (hwne : replLower patLower rule ≠ [])
    (hww : ∀ y ∈ replLower patLower rule, isAsciiAlnum y = true) :
    ∀ {b : Bool} {u u' : Str}, Rsub patLower rule b u u' →
      u'.takeWhile isPySpace = u.takeWhile isPySpace ∧
        ∃ b2, Rsub patLower rule b2 (u.dropWhile isPySpace) (u'.dropWhile isPySpace) := by
  intro b u u' h
  induction h with
  | nil b => exact ⟨rfl, b, Rsub.nil b⟩
  | copy b c t t' hnm hr ih =>
    by_cases hc : isPySpace c = true
    · obtain ⟨ih1, b2, ih2⟩ := ih
      refine ⟨?_, b2, ?_⟩
      · rw [List.takeWhile_cons_of_pos hc, List.takeWhile_cons_of_pos hc, ih1]
      · rw [List.dropWhile_cons_of_pos hc, List.dropWhile_cons_of_pos hc]
        exact ih2
    · refine ⟨?_, b, ?_⟩
      · rw [List.takeWhile_cons_of_neg hc, List.takeWhile_cons_of_neg hc]
      · rw [List.dropWhile_cons_of_neg hc, List.dropWhile_cons_of_neg hc]
        exact Rsub.copy b c t t' hnm hr
  | repl m t t' hm hnw hr ih =>
    have hmne : m ≠ [] := by
      intro hc
      rw [hc] at hm
      exact hpne hm.symm
    have hlw := applyRepl_lower rule hm
    have hchne : applyRepl rule m ≠ [] := by
      intro hc
      rw [hc] at hlw
      exact hwne hlw.symm
    have hchall : ∀ x ∈ applyRepl rule m, isAsciiAlnum x = true :=
      alnum_lift (by rw [hlw]; exact hww)
    cases hmc : m with
    | nil => exact absurd hmc hmne
    | cons m0 mr =>
      have hm0 : isAsciiAlnum m0 = true := by
        rw [← isAsciiAlnum_pyToLower]
        have hph : patLower.headD 'x' = pyToLower m0 := by
          rw [← hm, hmc]
          rfl
        rw [← hph]
        exact hphead
      have hm0sp : ¬ isPySpace m0 = true := by
        rw [alnum_not_space hm0]
        simp
      cases hch : applyRepl rule m with
      | nil => exact absurd hch hchne
      | cons x xs =>
        have hxa : isAsciiAlnum x = true := hchall x (by rw [hch]; simp)
        have hxsp : ¬ isPySpace x = true := by
          rw [alnum_not_space hxa]
          simp
        rw [hmc] at hch
        refine ⟨?_, false, ?_⟩
        · rw [hch, List.cons_append, List.cons_append, List.takeWhile_cons_of_neg hxsp,
            List.takeWhile_cons_of_neg hm0sp]
        · rw [hch, List.cons_append, List.cons_append, List.dropWhile_cons_of_neg hxsp,
            List.dropWhile_cons_of_neg hm0sp, ← List.cons_append, ← List.cons_append,
            ← hch, ← hmc]
          exact Rsub.repl m t t' hm hnw hr

theorem matchExists_nilCase {s : Str} (h : s.dropWhile isPySpace = []) :
    matchExists s = false := by
  unfold matchExists
  rw [h]

theorem matchExists_consCase {s : Str} {c : Char} {r2 : Str}
    (h : s.dropWhile isPySpace = c :: r2) :
    matchExists s =
      (isPunctClass c &&
        (decide (r2.dropWhile isPySpace = []) || decide ('\n' ∈ r2.takeWhile isPySpace))) := by
  unfold matchExists
  rw [h]

/-- The substitution relation preserves the match test of the
punctuation-line pattern. -/
theorem rsub_matchExists {patLower : Str} {rule : ReplRule}
    (hpne : patLower ≠ [])
    (hphead : isAsciiAlnum (patLower.headD 'x') = true)
    (hwne : replLower patLower rule ≠ [])
    (hww : ∀ y ∈ replLower patLower rule, isAsciiAlnum y = true) :
    ∀ {b : Bool} {u u' : Str}, Rsub patLower rule b u u' →
      matchExists u' = matchExists u := by
  have core : ∀ {b : Bool} {du du' : Str}, Rsub patLower rule b du du' →
      ∀ u u', u.dropWhile isPySpace = du → u'.dropWhile isPySpace = du' →
        matchExists u' = matchExists u := by
    intro b du du' h
    cases h with
    | nil b =>
      intro u u' hu hu'
      rw [matchExists_nilCase hu, matchExists_nilCase hu']
    | copy b c t2 t2' hnm hr =>
      intro u u' hu hu'
      rw [matchExists_consCase hu, matchExists_consCase hu']
      obtain ⟨htw2, b3, hdw2⟩ := rsub_takeWhile hpne hphead hwne hww hr
      rw [htw2]
      have hemp := rsub_nil_iff hpne hwne hdw2
      rw [decide_eq_decide.mpr hemp]
    | repl m t2 t2' hm hnw hr =>
      intro u u' hu hu'
      have hmne : m ≠ [] := by
        intro hc
        rw [hc] at hm
        exact hpne hm.symm
      have hlw := applyRepl_lower rule hm
      have hchne : applyRepl rule m ≠ [] := by
        intro hc
        rw [hc] at hlw
        exact hwne hlw.symm
      have hchall : ∀ x ∈ applyRepl rule m, isAsciiAlnum x = true :=
        alnum_lift (by rw [hlw]; exact hww)
      cases hmc : m with
      | nil => exact absurd hmc hmne
      | cons m0 mr =>
        have hm0 : isAsciiAlnum m0 = true := by
          rw [← isAsciiAlnum_pyToLower]
          have hph : patLower.headD 'x' = pyToLower m0 := by
            rw [← hm, hmc]
            rfl
          rw [← hph]
          exact hphead
        cases hch : applyRepl rule m with
        | nil => exact absurd hch hchne
        | cons x xs =>
          have hxa : isAsciiAlnum x = true := hchall x (by rw [hch]; simp)
          rw [hmc] at hu
          rw [hch] at hu'
          rw [List.cons_append] at hu hu'
          rw [matchExists_consCase hu, matchExists_consCase hu',
            alnum_not_punct hm0, alnum_not_punct hxa]
          simp
  intro b u u' h
  obtain ⟨htw, b2, hdw⟩ := rsub_takeWhile hpne hphead hwne hww h
  exact core hdw u u' rfl rfl

theorem punctClean_cons_eq (ls : Bool) (c : Char) (t : Str) :
    punctClean ls (c :: t) =
      ((!(ls && matchExists (c :: t))) && punctClean (decide (c = '\n')) t) := rfl

/-- Scanning an all-alphanumeric nonempty chunk in the punctuation-line
scan: no check fires inside, and the scan leaves in non-line-start
state. -/
theorem punctClean_chunk :
    ∀ (w : Str) (ls : Bool) (u : Str), w ≠ [] → (∀ x ∈ w, isAsciiAlnum x = true) →
      punctClean ls (w ++ u) = punctClean false u := by
  intro w
  induction w with
  | nil => intro ls u h; exact absurd rfl h
  | cons x xs ih =>
    intro ls u _ hall
    have hx := hall x (by simp)
    have hxsp : ¬ isPySpace x = true := by
      rw [alnum_not_space hx]
      simp
    have hme : matchExists (x :: (xs ++ u)) = false := by
      rw [matchExists_consCase (List.dropWhile_cons_of_neg hxsp), alnum_not_punct hx]
      rfl
    have hxnl : decide (x = '\n') = false := by
      apply decide_eq_false
      intro hc
      rw [hc] at hx
      exact absurd hx (by decide)
    rw [List.cons_append, punctClean_cons_eq, hme, hxnl]
    simp only [Bool.and_false, Bool.not_false, Bool.true_and]
    by_cases hxs : xs = []
    · subst hxs
      rfl
    · exact ih false u hxs (fun z hz => hall z (List.mem_cons_of_mem x hz))

/-- The state of the punctuation-line scan after a nonempty chunk. -/
theorem punctClean_append_tail :
    ∀ (a : Str) (ls : Bool) (u : Str), a ≠ [] → punctClean ls (a ++ u) = true →
      punctClean (decide (a.getLastD 'x' = '\n')) u = true := by
  intro a
  induction a with
  | nil => intro ls u h; exact absurd rfl h
  | cons x xs ih =>
    intro ls u _ h
    rw [List.cons_append, punctClean_cons_eq, Bool.and_eq_true] at h
    cases xs with
    | nil => simpa using h.2
    | cons y ys =>
      have h2 := ih (decide (x = '\n')) u (by simp) h.2
      rw [List.getLastD_cons, getLastD_irrel (by simp : (y :: ys : Str) ≠ []) x 'x']
      exact h2

/-- The substitution relation preserves the fixed points of the
punctuation-line removal. -/
theorem rsub_punctClean {patLower : Str} {rule : ReplRule}
    (hpne : patLower ≠ [])
    (hphead : isAsciiAlnum (patLower.headD 'x') = true)
    (hplast : isWordChar (patLower.getLastD 'x') = true)
    (hwne : replLower patLower rule ≠ [])
    (hww : ∀ y ∈ replLower patLower rule, isAsciiAlnum y = true) :
    ∀ {b : Bool} {u u' : Str}, Rsub patLower rule b u u' →
      ∀ ls, punctClean ls u = true → punctClean ls u' = true := by
  intro b u u' h
  induction h with
  | nil b => intro ls _; rfl
  | copy b c t t' hnm hr ih =>
    intro ls hpc
    rw [punctClean_cons_eq, Bool.and_eq_true] at hpc ⊢
    refine ⟨?_, ih _ hpc.2⟩
    have hme := rsub_matchExists hpne hphead hwne hww (Rsub.copy b c t t' hnm hr)
    rw [hme]
    exact hpc.1
  | repl m t t' hm hnw hr ih =>
    intro ls hpc
    have hmne : m ≠ [] := by
      intro hc
      rw [hc] at hm
      exact hpne hm.symm
    have hmap := getLastD_map pyToLower m 'x'
    rw [show pyToLower 'x' = 'x' from rfl] at hmap
    have hmlast : pyToLower (m.getLastD 'x') = patLower.getLastD 'x' := by
      rw [← hmap, ← hm]
      rfl
    have hmnl : decide (m.getLastD 'x' = '\n') = false := by
      apply decide_eq_false
      intro hc
      rw [hc] at hmlast
      rw [show pyToLower '\n' = '\n' from rfl] at hmlast
      rw [← hmlast] at hplast
      exact absurd hplast (by decide)
    have ht := punctClean_append_tail m ls t hmne hpc
    rw [hmnl] at ht
    have ht' := ih false ht
    have hlw := applyRepl_lower rule hm
    have hchne : applyRepl rule m ≠ [] := by
      intro hc
      rw [hc] at hlw
      exact hwne hlw.symm
    have hchall : ∀ x ∈ applyRepl rule m, isAsciiAlnum x = true :=
      alnum_lift (by rw [hlw]; exact hww)
    rw [punctClean_chunk (applyRepl rule m) ls t' hchne hchall]
    exact ht'

theorem noTripleNl_cons_nl (run : ℕ) (t : Str) :
    noTripleNl run ('\n' :: t) = (decide (run < 2) && noTripleNl (run + 1) t) := by
  simp [noTripleNl]

theorem noTripleNl_cons_other {c : Char} (h : ¬ c = '\n') (run : ℕ) (t : Str) :
    noTripleNl run (c :: t) = noTripleNl 0 t := by
  simp [noTripleNl, h]

/-- A nonempty newline-free chunk resets the newline-run counter. -/
theorem noTripleNl_chunk :
    ∀ (w : Str) (run : ℕ) (u : Str), w ≠ [] → ('\n' ∉ w) →
      noTripleNl run (w ++ u) = noTripleNl 0 u := by
  intro w
  induction w with
  | nil => intro run u h; exact absurd rfl h
  | cons x xs ih =>
    intro run u _ hnl
    have hx : ¬ x = '\n' := by
      intro hc
      exact hnl (by rw [hc]; simp)
    rw [List.cons_append, noTripleNl_cons_other hx]
    by_cases hxs : xs = []
    · subst hxs
      rfl
    · exact ih 0 u hxs (fun hc => hnl (List.mem_cons_of_mem x hc))

/-- The substitution relation preserves the fixed points of the
newline-collapsing stage. -/
theorem rsub_noTripleNl {patLower : Str} {rule : ReplRule}
    (hpne : patLower ≠ [])
    (hpnl : '\n' ∉ patLower)
    (hwne : replLower patLower rule ≠ [])
    (hww : ∀ y ∈ replLower patLower rule, isAsciiAlnum y = true) :
    ∀ {b : Bool} {u u' : Str}, Rsub patLower rule b u u' →
      ∀ run, noTripleNl run u = true → noTripleNl run u' = true := by
  intro b u u' h
  induction h with
  | nil b => intro run _; rfl
  | copy b c t t' hnm hr ih =>
    intro run hnt
    by_cases hc : c = '\n'
    · subst hc
      rw [noTripleNl_cons_nl, Bool.and_eq_true] at hnt ⊢
      exact ⟨hnt.1, ih (run + 1) hnt.2⟩
    · rw [noTripleNl_cons_other hc] at hnt ⊢
      exact ih 0 hnt
  | repl m t t' hm hnw hr ih =>
    intro run hnt
    have hmne : m ≠ [] := by
      intro hc
      rw [hc] at hm
      exact hpne hm.symm
    have hmnl : '\n' ∉ m := by
      intro hc
      have : pyToLower '\n' ∈ lowerStr m := List.mem_map_of_mem pyToLower hc
      rw [hm, show pyToLower '\n' = '\n' from rfl] at this
      exact hpnl this
    have hlw := applyRepl_lower rule hm
    have hchne : applyRepl rule m ≠ [] := by
      intro hc
      rw [hc] at hlw
      exact hwne hlw.symm
    have hchall : ∀ x ∈ applyRepl rule m, isAsciiAlnum x = true :=
      alnum_lift (by rw [hlw]; exact hww)
    have hchnl : '\n' ∉ applyRepl rule m := by
      intro hc
      exact absurd (hchall _ hc) (by decide)
    rw [noTripleNl_chunk m run t hmne hmnl] at hnt
    rw [noTripleNl_chunk (applyRepl rule m) run t' hchne hchnl]
    exact ih 0 hnt

theorem punctGo_false_nil : punctGo false [] = [] := by
  rw [punctGo]

theorem punctGo_false_cons (c : Char) (t : Str) :
    punctGo false (c :: t) = c :: punctGo (decide (c = '\n')) t := by
  rw [punctGo]

theorem punctGo_true_some {s rest : Str} {prev : Char}
    (h : punctMatchAt s = some (rest, prev)) :
    punctGo true s = punctGo (decide (prev = '\n')) rest := by
  rw [punctGo]
  split
  · rename_i rest2 prev2 heq
    rw [h] at heq
    simp only [Option.some.injEq, Prod.mk.injEq] at heq
    rw [heq.1, heq.2]
  · rename_i heq
    rw [h] at heq
    exact Option.noConfusion heq

theorem punctGo_true_nil : punctGo true [] = [] := by
  rw [punctGo]
  split
  · rename_i rest2 prev2 heq
    simp [punctMatchAt] at heq
  · rfl

theorem punctGo_true_none_cons {c : Char} {t : Str} (h : punctMatchAt (c :: t) = none) :
    punctGo true (c :: t) = c :: punctGo (decide (c = '\n')) t := by
  rw [punctGo]
  split
  · rename_i rest2 prev2 heq
    rw [h] at heq
    exact Option.noConfusion heq
  · rfl

theorem splitLastNl_none_iff : ∀ (w : Str), splitLastNl w = none ↔ '\n' ∉ w := by
  intro w
  induction w with
  | nil => simp [splitLastNl]
  | cons c t ih =>
    cases hrec : splitLastNl t with
    | some p =>
      obtain ⟨v, tl⟩ := p
      have hmem : '\n' ∈ t := by
        by_contra hc
        rw [ih.mpr hc] at hrec
        exact Option.noConfusion hrec
      refine iff_of_false (fun hc => ?_) (fun hc => hc (List.mem_cons_of_mem c hmem))
      simp [splitLastNl, hrec] at hc
    | none =>
      by_cases hc : c = '\n'
      · refine iff_of_false (fun hx => ?_) (fun hx => hx (by rw [hc]; simp))
        simp [splitLastNl, hrec, hc] at hx
      · simp only [splitLastNl, hrec, if_neg hc, List.mem_cons, not_or]
        constructor
        · intro _
          exact ⟨fun hx => hc hx.symm, ih.mp hrec⟩
        · intro _
          trivial

theorem punctMatchAt_none_iff (s : Str) :
    punctMatchAt s = none ↔ matchExists s = false := by
  unfold punctMatchAt
  cases hd : s.dropWhile isPySpace with
  | nil =>
    rw [matchExists_nilCase hd]
    simp
  | cons c r2 =>
    rw [matchExists_consCase hd]
    dsimp only
    by_cases hpc : isPunctClass c = true
    · rw [if_pos hpc, hpc]
      simp only [Bool.true_and]
      by_cases hr3 : r2.dropWhile isPySpace = []
      · rw [if_pos hr3]
        refine iff_of_false (fun hx => Option.noConfusion hx) (fun hx => ?_)
        simp [hr3] at hx
      · rw [if_neg hr3]
        cases hsplit : splitLastNl (r2.takeWhile isPySpace) with
        | none =>
          have hnl : '\n' ∉ r2.takeWhile isPySpace := (splitLastNl_none_iff _).mp hsplit
          simp [hr3, hnl]
        | some p =>
          obtain ⟨v, tl⟩ := p
          have hnl : '\n' ∈ r2.takeWhile isPySpace := by
            by_contra hcx
            rw [(splitLastNl_none_iff _).mpr hcx] at hsplit
            exact Option.noConfusion hsplit
          simp [hr3, hnl]
    · rw [if_neg hpc]
      have hf : isPunctClass c = false := by simpa using hpc
      rw [hf]
      simp

theorem matchExists_of_some {s rest : Str} {prev : Char}
    (h : punctMatchAt s = some (rest, prev)) : matchExists s = true := by
  cases hme : matchExists s with
  | true => rfl
  | false =>
    rw [(punctMatchAt_none_iff s).mpr hme] at h
    exact Option.noConfusion h

theorem punctMatchAt_rest_shape {s rest : Str} {prev : Char}
    (h : punctMatchAt s = some (rest, prev)) :
    rest = [] ∨ ∃ rr, rest = '\n' :: rr := by
  unfold punctMatchAt at h
  cases hd : s.dropWhile isPySpace with
  | nil =>
    rw [hd] at h
    exact Option.noConfusion h
  | cons c r2 =>
    rw [hd] at h
    dsimp only at h
    by_cases hpc : isPunctClass c = true
    · rw [if_pos hpc] at h
      by_cases hr3 : r2.dropWhile isPySpace = []
      · rw [if_pos hr3] at h
        simp only [Option.some.injEq, Prod.mk.injEq] at h
        exact Or.inl h.1.symm
      · rw [if_neg hr3] at h
        cases hsplit : splitLastNl (r2.takeWhile isPySpace) with
        | none =>
          rw [hsplit] at h
          exact Option.noConfusion h
        | some p =>
          obtain ⟨v, tl⟩ := p
          rw [hsplit] at h
          simp only [Option.some.injEq, Prod.mk.injEq] at h
          exact Or.inr ⟨tl ++ r2.dropWhile isPySpace, h.1.symm⟩
    · rw [if_neg hpc] at h
      exact Option.noConfusion h

theorem wok_suffix {u s : Str} (hs : u.IsSuffix s) (hw : WOk s) : WOk u := by
  obtain ⟨a, ha⟩ := hs
  rw [← ha] at hw
  exact wok_append_right hw

/-- The head of the punctuation-stage output is the input's head or a
newline. -/
theorem punctGo_head : ∀ (n : ℕ) (s : Str), s.length ≤ n → ∀ (ls : Bool) (h : Char),
    (punctGo ls s).head? = some h → s.head? = some h ∨ h = '\n' := by
  intro n
  induction n with
  | zero =>
    intro s hs ls h hh
    have hnil : s = [] := List.length_eq_zero.mp (Nat.le_zero.mp hs)
    subst hnil
    cases ls with
    | true => rw [punctGo_true_nil] at hh; exact absurd hh (by simp)
    | false => rw [punctGo_false_nil] at hh; exact absurd hh (by simp)
  | succ n ih =>
    intro s hs ls h hh
    cases ls with
    | false =>
      cases s with
      | nil => rw [punctGo_false_nil] at hh; exact absurd hh (by simp)
      | cons c t =>
        rw [punctGo_false_cons, List.head?_cons, Option.some.injEq] at hh
        exact Or.inl (by rw [List.head?_cons, hh])
    | true =>
      cases hm : punctMatchAt s with
      | some p =>
        obtain ⟨rest, prev⟩ := p
        rw [punctGo_true_some hm] at hh
        have hlen := punctMatchAt_shorter s rest prev hm
        have hrest := ih rest (by omega) _ h hh
        rcases punctMatchAt_rest_shape hm with hre | ⟨rr, hre⟩
        · subst hre
          rcases hrest with h1 | h1
          · exact absurd h1 (by simp)
          · exact Or.inr h1
        · subst hre
          rcases hrest with h1 | h1
          · rw [List.head?_cons, Option.some.injEq] at h1
            exact Or.inr h1.symm
          · exact Or.inr h1
      | none =>
        cases s with
        | nil => rw [punctGo_true_nil] at hh; exact absurd hh (by simp)
        | cons c t =>
          rw [punctGo_true_none_cons hm, List.head?_cons, Option.some.injEq] at hh
          exact Or.inl (by rw [List.head?_cons, hh])

/-- The punctuation-line removal preserves the fixed points of the
whitespace-collapsing stage. -/
theorem wok_punctGo : ∀ (n : ℕ) (s : Str), s.length ≤ n → ∀ ls, WOk s →
    WOk (punctGo ls s) := by
  intro n
  induction n with
  | zero =>
    intro s hs ls hw
    have hnil : s = [] := List.length_eq_zero.mp (Nat.le_zero.mp hs)
    subst hnil
    cases ls with
    | true => rw [punctGo_true_nil]; exact ⟨by simp, List.chain'_nil⟩
    | false => rw [punctGo_false_nil]; exact ⟨by simp, List.chain'_nil⟩
  | succ n ih =>
    intro s hs ls hw
    have hemit : ∀ (c : Char) (t : Str), s = c :: t →
        WOk (c :: punctGo (decide (c = '\n')) t) := by
      intro c t hst
      subst hst
      have hts : t.length ≤ n := by
        simp only [List.length_cons] at hs
        omega
      have hwt := ih t hts (decide (c = '\n')) (wok_tail hw)
      refine ⟨?_, ?_⟩
      · intro hmem
        rcases List.mem_cons.mp hmem with h1 | h1
        · exact hw.1 (by rw [h1]; simp)
        · exact hwt.1 h1
      · rw [List.chain'_cons']
        refine ⟨?_, hwt.2⟩
        intro y hy hcon
        rw [Option.mem_def] at hy
        rcases punctGo_head n t hts _ y hy with h1 | h1
        · exact (List.chain'_cons'.mp hw.2).1 y h1 hcon
        · rw [hcon.2] at h1
          exact absurd h1 (by decide)
    cases ls with
    | false =>
      cases s with
      | nil => rw [punctGo_false_nil]; exact hw
      | cons c t => rw [punctGo_false_cons]; exact hemit c t rfl
    | true =>
      cases hm : punctMatchAt s with
      | some p =>
        obtain ⟨rest, prev⟩ := p
        rw [punctGo_true_some hm]
        have hlen := punctMatchAt_shorter s rest prev hm
        exact ih rest (by omega) _ (wok_suffix (punctMatchAt_suffix s rest prev hm) hw)
      | none =>
        cases s with
        | nil => rw [punctGo_true_nil]; exact hw
        | cons c t => rw [punctGo_true_none_cons hm]; exact hemit c t rfl

/-- On inputs whose line starts carry no match, the punctuation-line
removal is the identity. -/
theorem punctGo_id : ∀ (n : ℕ) (s : Str), s.length ≤ n → ∀ ls, punctClean ls s = true →
    punctGo ls s = s := by
  intro n
  induction n with
  | zero =>
    intro s hs ls _
    have hnil : s = [] := List.length_eq_zero.mp (Nat.le_zero.mp hs)
    subst hnil
    cases ls with
    | true => exact punctGo_true_nil
    | false => exact punctGo_false_nil
  | succ n ih =>
    intro s hs ls hpc
    cases s with
    | nil =>
      cases ls with
      | true => exact punctGo_true_nil
      | false => exact punctGo_false_nil
    | cons c t =>
      have hts : t.length ≤ n := by
        simp only [List.length_cons] at hs
        omega
      rw [punctClean_cons_eq, Bool.and_eq_true] at hpc
      have hid := ih t hts _ hpc.2
      cases ls with
      | false => rw [punctGo_false_cons, hid]
      | true =>
        have hme : matchExists (c :: t) = false := by simpa using hpc.1
        have hm : punctMatchAt (c :: t) = none := (punctMatchAt_none_iff _).mpr hme
        rw [punctGo_true_none_cons hm, hid]

theorem matchExists_cons_space {c : Char} (hc : isPySpace c = true) (u : Str) :
    matchExists (c :: u) = matchExists u := by
  have hd : (c :: u).dropWhile isPySpace = u.dropWhile isPySpace :=
    List.dropWhile_cons_of_pos hc
  cases hdu : u.dropWhile isPySpace with
  | nil =>
    rw [matchExists_nilCase (by rw [hd, hdu]), matchExists_nilCase hdu]
  | cons d r2 =>
    rw [matchExists_consCase (show (c :: u).dropWhile isPySpace = d :: r2 by rw [hd, hdu]),
      matchExists_consCase hdu]

theorem punctClean_head_me {Y : Str} (h : punctClean true Y = true) :
    matchExists Y = false := by
  cases Y with
  | nil => exact matchExists_nilCase rfl
  | cons y ys =>
    rw [punctClean_cons_eq, Bool.and_eq_true] at h
    simpa using h.1

theorem dropWhile_head_not (p : Char → Bool) : ∀ (l : Str) {c : Char} {r : Str},
    l.dropWhile p = c :: r → p c = false := by
  intro l
  induction l with
  | nil => intro c r h; exact List.noConfusion h
  | cons x xs ih =>
    intro c r h
    by_cases hx : p x = true
    · rw [List.dropWhile_cons_of_pos hx] at h
      exact ih h
    · rw [List.dropWhile_cons_of_neg hx] at h
      rw [List.cons.injEq] at h
      rw [← h.1]
      simpa using hx

theorem takeWhile_append_all (p : Char → Bool) :
    ∀ (a v : Str), (∀ x ∈ a, p x = true) →
      (a ++ v).takeWhile p = a ++ v.takeWhile p ∧ (a ++ v).dropWhile p = v.dropWhile p := by
  intro a
  induction a with
  | nil => intro v _; exact ⟨rfl, rfl⟩
  | cons x xs ih =>
    intro v h
    have hx := h x (by simp)
    obtain ⟨ih1, ih2⟩ := ih v (fun z hz => h z (List.mem_cons_of_mem x hz))
    constructor
    · rw [List.cons_append, List.takeWhile_cons_of_pos hx, ih1, List.cons_append]
    · rw [List.cons_append, List.dropWhile_cons_of_pos hx, ih2]

/-- The false-state scanner copies a newline-free prefix verbatim. -/
theorem punctGo_false_nonl : ∀ (a v : Str), '\n' ∉ a →
    punctGo false (a ++ v) = a ++ punctGo false v := by
  intro a
  induction a with
  | nil => intro v _; rfl
  | cons d a2 ih =>
    intro v hnl
    have hd : decide (d = '\n') = false := by
      apply decide_eq_false
      intro hc
      exact hnl (by rw [hc]; simp)
    rw [List.cons_append, punctGo_false_cons, hd,
      ih v (fun hc => hnl (List.mem_cons_of_mem d hc)), List.cons_append]

/-- The punctuation-line removal creates no match at the start of the
string. -/
theorem matchExists_punctGo : ∀ (n : ℕ) (s : Str), s.length ≤ n → ∀ ls,
    matchExists s = false → matchExists (punctGo ls s) = false := by
  intro n
  induction n with
  | zero =>
    intro s hs ls _
    have hnil : s = [] := List.length_eq_zero.mp (Nat.le_zero.mp hs)
    subst hnil
    cases ls with
    | true => rw [punctGo_true_nil]; exact matchExists_nilCase rfl
    | false => rw [punctGo_false_nil]; exact matchExists_nilCase rfl
  | succ n ih =>
    intro s hs ls hme
    cases s with
    | nil =>
      cases ls with
      | true => rw [punctGo_true_nil]; exact matchExists_nilCase rfl
      | false => rw [punctGo_false_nil]; exact matchExists_nilCase rfl
    | cons c t =>
      have hts : t.length ≤ n := by
        simp only [List.length_cons] at hs
        omega
      have hout : punctGo ls (c :: t) = c :: punctGo (decide (c = '\n')) t := by
        cases ls with
        | false => exact punctGo_false_cons c t
        | true =>
          exact punctGo_true_none_cons ((punctMatchAt_none_iff _).mpr hme)
      rw [hout]
      by_cases hcsp : isPySpace c = true
      · rw [matchExists_cons_space hcsp]
        rw [matchExists_cons_space hcsp] at hme
        exact ih t hts _ hme
      · have hcnl : decide (c = '\n') = false := by
          apply decide_eq_false
          intro hc
          rw [hc] at hcsp
          exact hcsp (by decide)
        rw [hcnl]
        rw [matchExists_consCase (List.dropWhile_cons_of_neg hcsp)] at hme
        by_cases hpc : isPunctClass c = true
        · rw [hpc, Bool.true_and] at hme
          have hme2 : t.dropWhile isPySpace ≠ [] ∧ '\n' ∉ t.takeWhile isPySpace := by
            constructor
            · intro hc
              rw [hc] at hme
              simp at hme
            · intro hc
              rw [decide_eq_true hc] at hme
              simp at hme
          obtain ⟨hr3ne, hnlw2⟩ := hme2
          have hw2sp : ∀ x ∈ t.takeWhile isPySpace, isPySpace x = true :=
            fun x hx => List.mem_takeWhile_imp hx
          cases hr3 : t.dropWhile isPySpace with
          | nil => exact absurd hr3 hr3ne
          | cons e r3' =>
            have hesp : isPySpace e = false := dropWhile_head_not isPySpace t hr3
            have hespn : ¬ isPySpace e = true := by
              rw [hesp]
              simp
            have hsplit : punctGo false t =
                t.takeWhile isPySpace ++ punctGo false (e :: r3') := by
              conv_lhs =>
                rw [← List.takeWhile_append_dropWhile (p := isPySpace) (l := t), hr3]
              exact punctGo_false_nonl _ _ hnlw2
            rw [hsplit, punctGo_false_cons]
            rw [matchExists_consCase (List.dropWhile_cons_of_neg hcsp), hpc, Bool.true_and]
            obtain ⟨htw, hdw⟩ := takeWhile_append_all isPySpace (t.takeWhile isPySpace)
              (e :: punctGo (decide (e = '\n')) r3') hw2sp
            rw [htw, hdw, List.takeWhile_cons_of_neg hespn, List.dropWhile_cons_of_neg hespn]
            simp [hnlw2]
        · have hpcf : isPunctClass c = false := by simpa using hpc
          rw [matchExists_consCase (List.dropWhile_cons_of_neg hcsp), hpcf]
          simp

/-- The punctuation-line removal establishes its own fixed-point
predicate. -/
theorem punctClean_punctGo : ∀ (n : ℕ) (s : Str), s.length ≤ n → ∀ ls,
    punctClean ls (punctGo ls s) = true := by
  intro n
  induction n with
  | zero =>
    intro s hs ls
    have hnil : s = [] := List.length_eq_zero.mp (Nat.le_zero.mp hs)
    subst hnil
    cases ls with
    | true => rw [punctGo_true_nil]; rfl
    | false => rw [punctGo_false_nil]; rfl
  | succ n ih =>
    intro s hs ls
    cases s with
    | nil =>
      cases ls with
      | true => rw [punctGo_true_nil]; rfl
      | false => rw [punctGo_false_nil]; rfl
    | cons c t =>
      have hts : t.length ≤ n := by
        simp only [List.length_cons] at hs
        omega
      cases ls with
      | false =>
        rw [punctGo_false_cons, punctClean_cons_eq]
        simp only [Bool.false_and, Bool.not_false, Bool.true_and]
        exact ih t hts _
      | true =>
        cases hm : punctMatchAt (c :: t) with
        | none =>
          have hme : matchExists (c :: t) = false := (punctMatchAt_none_iff _).mp hm
          have hme2 : matchExists (punctGo true (c :: t)) = false :=
            matchExists_punctGo (n + 1) (c :: t) hs true hme
          rw [punctGo_true_none_cons hm] at hme2
          rw [punctGo_true_none_cons hm, punctClean_cons_eq, hme2]
          simp only [Bool.and_false, Bool.not_false, Bool.true_and]
          exact ih t hts _
        | some p =>
          obtain ⟨rest, prev⟩ := p
          rw [punctGo_true_some hm]
          have hlen := punctMatchAt_shorter _ _ _ hm
          by_cases hprev : decide (prev = '\n') = true
          · rw [hprev]
            exact ih rest (by omega) true
          · have hpf : decide (prev = '\n') = false := by simpa using hprev
            rw [hpf]
            rcases punctMatchAt_rest_shape hm with hre | ⟨rr, hre⟩
            · subst hre
              rw [punctGo_false_nil]
              rfl
            · subst hre
              have hnl : decide (('\n' : Char) = '\n') = true := by decide
              rw [punctGo_false_cons, hnl]
              have hrr : rr.length ≤ n := by
                simp only [List.length_cons] at hlen hs
                omega
              have hY := ih rr hrr true
              have hmecons : matchExists ('\n' :: punctGo true rr) = false := by
                rw [matchExists_cons_space (by decide)]
                exact punctClean_head_me hY
              rw [punctClean_cons_eq, hmecons]
              simp only [Bool.and_false, Bool.not_false, Bool.true_and, decide_True]
              exact hY

theorem nl3Go_cons_nl_lt {run : ℕ} (h : run < 2) (t : Str) :
    nl3Go run ('\n' :: t) = '\n' :: nl3Go (run + 1) t := by
  simp [nl3Go, h]

theorem nl3Go_cons_nl_ge {run : ℕ} (h : ¬ run < 2) (t : Str) :
    nl3Go run ('\n' :: t) = nl3Go (run + 1) t := by
  simp [nl3Go, h]

theorem nl3Go_cons_other {c : Char} (h : ¬ c = '\n') (run : ℕ) (t : Str) :
    nl3Go run (c :: t) = c :: nl3Go 0 t := by
  simp [nl3Go, h]

/-- On inputs with no three consecutive newlines, the newline collapse is
the identity. -/
theorem nl3Go_id : ∀ (s : Str) (run : ℕ), noTripleNl run s = true → nl3Go run s = s := by
  intro s
  induction s with
  | nil => intro run _; rfl
  | cons c t ih =>
    intro run h
    by_cases hc : c = '\n'
    · subst hc
      rw [noTripleNl_cons_nl, Bool.and_eq_true, decide_eq_true_eq] at h
      rw [nl3Go_cons_nl_lt h.1, ih _ h.2]
    · rw [noTripleNl_cons_other hc] at h
      rw [nl3Go_cons_other hc, ih 0 h]

theorem noTripleNl_mono : ∀ (s : Str) (r r2 : ℕ), r2 ≤ r → noTripleNl r s = true →
    noTripleNl r2 s = true := by
  intro s
  induction s with
  | nil => intro r r2 _ _; rfl
  | cons c t ih =>
    intro r r2 hle h
    by_cases hc : c = '\n'
    · subst hc
      rw [noTripleNl_cons_nl, Bool.and_eq_true, decide_eq_true_eq] at h
      rw [noTripleNl_cons_nl, Bool.and_eq_true]
      exact ⟨decide_eq_true (by omega), ih (r + 1) (r2 + 1) (by omega) h.2⟩
    · rw [noTripleNl_cons_other hc] at h
      rw [noTripleNl_cons_other hc]
      exact h

/-- The newline collapse establishes its own fixed-point predicate. -/
theorem noTripleNl_nl3Go : ∀ (s : Str) (run : ℕ), noTripleNl run (nl3Go run s) = true := by
  intro s
  induction s with
  | nil => intro run; rfl
  | cons c t ih =>
    intro run
    by_cases hc : c = '\n'
    · subst hc
      by_cases hr : run < 2
      · rw [nl3Go_cons_nl_lt hr, noTripleNl_cons_nl, Bool.and_eq_true]
        exact ⟨decide_eq_true hr, ih (run + 1)⟩
      · rw [nl3Go_cons_nl_ge hr]
        exact noTripleNl_mono _ (run + 1) run (by omega) (ih (run + 1))
    · rw [nl3Go_cons_other hc, noTripleNl_cons_other hc]
      exact ih 0

theorem nl3Go_sublist : ∀ (s : Str) (run : ℕ), (nl3Go run s).Sublist s := by
  intro s
  induction s with
  | nil => intro run; exact List.Sublist.refl []
  | cons c t ih =>
    intro run
    by_cases hc : c = '\n'
    · subst hc
      by_cases hr : run < 2
      · rw [nl3Go_cons_nl_lt hr]
        exact (ih (run + 1)).cons₂ _
      · rw [nl3Go_cons_nl_ge hr]
        exact (ih (run + 1)).cons _
    · rw [nl3Go_cons_other hc]
      exact (ih 0).cons₂ _

theorem nl3Go_head_lt {run : ℕ} (h : run < 2) (t : Str) :
    (nl3Go run t).head? = t.head? := by
  cases t with
  | nil => rfl
  | cons c t2 =>
    by_cases hc : c = '\n'
    · subst hc
      rw [nl3Go_cons_nl_lt h]
      rfl
    · rw [nl3Go_cons_other hc]
      rfl

/-- The newline collapse preserves the fixed points of the
whitespace-collapsing stage. -/
theorem wok_nl3Go : ∀ (s : Str) (run : ℕ), WOk s → WOk (nl3Go run s) := by
  intro s
  induction s with
  | nil => intro run h; exact h
  | cons c t ih =>
    intro run hw
    by_cases hc : c = '\n'
    · subst hc
      by_cases hr : run < 2
      · rw [nl3Go_cons_nl_lt hr]
        refine ⟨?_, ?_⟩
        · intro hm
          rcases List.mem_cons.mp hm with h1 | h1
          · exact absurd h1 (by decide)
          · exact (ih (run + 1) (wok_tail hw)).1 h1
        · rw [List.chain'_cons']
          refine ⟨?_, (ih (run + 1) (wok_tail hw)).2⟩
          intro y hy hcon
          exact absurd hcon.1 (by decide)
      · rw [nl3Go_cons_nl_ge hr]
        exact ih (run + 1) (wok_tail hw)
    · rw [nl3Go_cons_other hc]
      refine ⟨?_, ?_⟩
      · intro hm
        rcases List.mem_cons.mp hm with h1 | h1
        · exact hw.1 (by rw [h1]; simp)
        · exact (ih 0 (wok_tail hw)).1 h1
      · rw [List.chain'_cons']
        refine ⟨?_, (ih 0 (wok_tail hw)).2⟩
        intro y hy hcon
        rw [Option.mem_def, nl3Go_head_lt (by omega)] at hy
        exact (List.chain'_cons'.mp hw.2).1 y hy hcon

/-- The newline collapse and the leading-whitespace decomposition. -/
theorem nl3Go_dropWhile : ∀ (s : Str) (run : ℕ),
    ((s.dropWhile isPySpace = []) → (nl3Go run s).dropWhile isPySpace = []) ∧
    ∀ c r2, s.dropWhile isPySpace = c :: r2 →
      (nl3Go run s).dropWhile isPySpace = c :: nl3Go 0 r2 := by
  intro s
  induction s with
  | nil => intro run; exact ⟨fun _ => rfl, fun c r2 h => List.noConfusion h⟩
  | cons d t ih =>
    intro run
    by_cases hd : isPySpace d = true
    · have hdw : (d :: t).dropWhile isPySpace = t.dropWhile isPySpace :=
        List.dropWhile_cons_of_pos hd
      by_cases hdn : d = '\n'
      · subst hdn
        by_cases hr : run < 2
        · rw [nl3Go_cons_nl_lt hr]
          have hx : (('\n' :: nl3Go (run + 1) t)).dropWhile isPySpace =
              (nl3Go (run + 1) t).dropWhile isPySpace :=
            List.dropWhile_cons_of_pos (by decide)
          rw [hdw, hx]
          exact ih (run + 1)
        · rw [nl3Go_cons_nl_ge hr, hdw]
          exact ih (run + 1)
      · rw [nl3Go_cons_other hdn, hdw, List.dropWhile_cons_of_pos hd]
        exact ih 0
    · have hdn : ¬ d = '\n' := by
        intro hcx
        rw [hcx] at hd
        exact hd (by decide)
      rw [nl3Go_cons_other hdn, List.dropWhile_cons_of_neg hd, List.dropWhile_cons_of_neg hd]
      refine ⟨fun h => List.noConfusion h, fun c r2 h => ?_⟩
      rw [List.cons.injEq] at h
      rw [h.1, h.2]

/-- At run counter 0, the newline collapse keeps a newline in each
whitespace run that had one. -/
theorem nl3Go_takeWhile_nl : ∀ (s : Str),
    ('\n' ∈ (nl3Go 0 s).takeWhile isPySpace) ↔ '\n' ∈ s.takeWhile isPySpace := by
  intro s
  induction s with
  | nil => simp [nl3Go]
  | cons d t ih =>
    by_cases hd : isPySpace d = true
    · by_cases hdn : d = '\n'
      · subst hdn
        rw [nl3Go_cons_nl_lt (by omega)]
        rw [List.takeWhile_cons_of_pos (by decide), List.takeWhile_cons_of_pos (by decide)]
        simp
      · rw [nl3Go_cons_other hdn]
        rw [List.takeWhile_cons_of_pos hd, List.takeWhile_cons_of_pos hd]
        simp only [List.mem_cons]
        constructor
        · intro h
          rcases h with h1 | h1
          · exact absurd h1.symm hdn
          · exact Or.inr (ih.mp h1)
        · intro h
          rcases h with h1 | h1
          · exact absurd h1.symm hdn
          · exact Or.inr (ih.mpr h1)
    · rw [nl3Go_cons_other (fun hcx => hd (by rw [hcx]; decide))]
      rw [List.takeWhile_cons_of_neg hd, List.takeWhile_cons_of_neg hd]

/-- The newline collapse does not change whether the punctuation-line
pattern matches at the current position. -/
theorem matchExists_nl3Go (s : Str) (run : ℕ) :
    matchExists (nl3Go run s) = matchExists s := by
  obtain ⟨hnil, hcons⟩ := nl3Go_dropWhile s run
  cases hd : s.dropWhile isPySpace with
  | nil => rw [matchExists_nilCase (hnil hd), matchExists_nilCase hd]
  | cons c r2 =>
    rw [matchExists_consCase (hcons c r2 hd), matchExists_consCase hd]
    obtain ⟨hnil2, hcons2⟩ := nl3Go_dropWhile r2 0
    have harm1 : decide ((nl3Go 0 r2).dropWhile isPySpace = []) =
        decide (r2.dropWhile isPySpace = []) := by
      apply decide_eq_decide.mpr
      constructor
      · intro h
        by_contra hc
        cases hr : r2.dropWhile isPySpace with
        | nil => exact hc hr
        | cons e r3 =>
          rw [hcons2 e r3 hr] at h
          exact List.noConfusion h
      · intro h
        exact hnil2 h
    have harm2 : decide ('\n' ∈ (nl3Go 0 r2).takeWhile isPySpace) =
        decide ('\n' ∈ r2.takeWhile isPySpace) :=
      decide_eq_decide.mpr (nl3Go_takeWhile_nl r2)
    rw [harm1, harm2]

/-- The newline collapse preserves the fixed points of the
punctuation-line removal (the run counter being positive forces a line
start). -/
theorem punctClean_nl3Go : ∀ (s : Str) (run : ℕ) (ls : Bool),
    punctClean ls s = true → (1 ≤ run → ls = true) →
    punctClean ls (nl3Go run s) = true := by
  intro s
  induction s with
  | nil => intro run ls _ _; rfl
  | cons c t ih =>
    intro run ls hpc hinv
    rw [punctClean_cons_eq, Bool.and_eq_true] at hpc
    obtain ⟨hpc1, hpc2⟩ := hpc
    by_cases hc : c = '\n'
    · subst hc
      have hdt : decide (('\n' : Char) = '\n') = true := by decide
      rw [hdt] at hpc2
      by_cases hr : run < 2
      · rw [nl3Go_cons_nl_lt hr, punctClean_cons_eq, Bool.and_eq_true]
        constructor
        · have hx : matchExists ('\n' :: nl3Go (run + 1) t) = matchExists ('\n' :: t) := by
            rw [← nl3Go_cons_nl_lt hr]
            exact matchExists_nl3Go ('\n' :: t) run
          rw [hx]
          exact hpc1
        · rw [hdt]
          exact ih (run + 1) true hpc2 (fun _ => rfl)
      · rw [nl3Go_cons_nl_ge hr]
        have hls : ls = true := hinv (by omega)
        subst hls
        exact ih (run + 1) true hpc2 (fun _ => rfl)
    · have hcd : decide (c = '\n') = false := decide_eq_false hc
      rw [hcd] at hpc2
      rw [nl3Go_cons_other hc, punctClean_cons_eq, Bool.and_eq_true]
      constructor
      · have hx : matchExists (c :: nl3Go 0 t) = matchExists (c :: t) := by
          rw [← nl3Go_cons_other hc 0]
          exact matchExists_nl3Go (c :: t) 0
        rw [hx]
        exact hpc1
      · rw [hcd]
        exact ih 0 false hpc2 (fun h => absurd h (by omega))

theorem getLastD_mem : ∀ (l : Str) (d : Char), l ≠ [] → l.getLastD d ∈ l := by
  intro l
  induction l with
  | nil => intro d h; exact absurd rfl h
  | cons x xs ih =>
    intro d _
    cases hxs : xs with
    | nil => simp
    | cons y ys =>
      rw [List.getLastD_cons]
      rw [hxs] at ih
      exact List.mem_cons_of_mem x (ih x (by simp))

theorem wok_append_left {a u : Str} (h : WOk (a ++ u)) : WOk a :=
  ⟨fun hm => h.1 (List.mem_append.mpr (Or.inl hm)), (List.chain'_append.mp h.2).1⟩

/-- A string splits as leading whitespace, its stripped core, and trailing
whitespace. -/
theorem pyStrip_decomp (s : Str) :
    ∃ ws1 ws2, (∀ z ∈ ws1, isPySpace z = true) ∧ (∀ z ∈ ws2, isPySpace z = true) ∧
      s = ws1 ++ (pyStrip s ++ ws2) := by
  refine ⟨s.takeWhile isPySpace,
    ((s.dropWhile isPySpace).reverse.takeWhile isPySpace).reverse,
    fun z hz => List.mem_takeWhile_imp hz, ?_, ?_⟩
  · intro z hz
    rw [List.mem_reverse] at hz
    exact List.mem_takeWhile_imp hz
  · conv_lhs => rw [← List.takeWhile_append_dropWhile (p := isPySpace) (l := s)]
    congr 1
    conv_lhs =>
      rw [← List.reverse_reverse (s.dropWhile isPySpace),
        ← List.takeWhile_append_dropWhile (p := isPySpace)
          (l := (s.dropWhile isPySpace).reverse)]
    rw [List.reverse_append]
    rfl

theorem dropWhile_eq_self_of_head {u : Str}
    (h : ∀ c, u.head? = some c → isPySpace c = false) :
    u.dropWhile isPySpace = u := by
  cases u with
  | nil => rfl
  | cons c t =>
    have hc := h c rfl
    exact List.dropWhile_cons_of_neg (by rw [hc]; simp)

theorem pyStrip_head (s : Str) : ∀ c, (pyStrip s).head? = some c → isPySpace c = false := by
  intro c hc
  obtain ⟨ws1, ws2, _, _, hdec⟩ := pyStrip_decomp s
  cases hcore : pyStrip s with
  | nil => rw [hcore] at hc; exact Option.noConfusion hc
  | cons d r =>
    rw [hcore, List.head?_cons, Option.some.injEq] at hc
    subst hc
    rw [hcore] at hdec
    -- s = ws1 ++ (c :: r ++ ws2): dropWhile s starts at or before c... use: c :: (r ++ ws2) = dropWhile-suffix?
    -- directly: pyStrip s = (reverse (dropWhile isPySpace (reverse (dropWhile isPySpace s))))
    -- its characters come from dropWhile isPySpace s; head c: show via dropWhile-of-mid:
    -- mid := s.dropWhile isPySpace: pyStrip s is a prefix of mid with same head.
    have hmid : s.dropWhile isPySpace =
        (pyStrip s) ++ ((s.dropWhile isPySpace).reverse.takeWhile isPySpace).reverse := by
      conv_lhs =>
        rw [← List.reverse_reverse (s.dropWhile isPySpace),
          ← List.takeWhile_append_dropWhile (p := isPySpace)
            (l := (s.dropWhile isPySpace).reverse)]
      rw [List.reverse_append]
      rfl
    rw [hcore, List.cons_append] at hmid
    exact dropWhile_head_not isPySpace s hmid

theorem pyStrip_last (s : Str) :
    ∀ c, (pyStrip s).reverse.head? = some c → isPySpace c = false := by
  intro c hc
  have hrev : (pyStrip s).reverse = (s.dropWhile isPySpace).reverse.dropWhile isPySpace := by
    show (((s.dropWhile isPySpace).reverse.dropWhile isPySpace).reverse).reverse = _
    rw [List.reverse_reverse]
  rw [hrev] at hc
  cases hd : (s.dropWhile isPySpace).reverse.dropWhile isPySpace with
  | nil => rw [hd] at hc; exact Option.noConfusion hc
  | cons d r =>
    rw [hd, List.head?_cons, Option.some.injEq] at hc
    subst hc
    exact dropWhile_head_not isPySpace _ hd

/-- Stripping is idempotent. -/
theorem pyStrip_idem (s : Str) : pyStrip (pyStrip s) = pyStrip s := by
  show (((pyStrip s).dropWhile isPySpace).reverse.dropWhile isPySpace).reverse = pyStrip s
  rw [dropWhile_eq_self_of_head (pyStrip_head s),
    dropWhile_eq_self_of_head (pyStrip_last s), List.reverse_reverse]

theorem mem_takeWhile_append (p : Char → Bool) :
    ∀ (r2 ws : Str) (a : Char), a ∈ r2.takeWhile p → a ∈ (r2 ++ ws).takeWhile p := by
  intro r2
  induction r2 with
  | nil => intro ws a h; simp [List.takeWhile] at h
  | cons d r3 ih =>
    intro ws a h
    by_cases hd : p d = true
    · rw [List.takeWhile_cons_of_pos hd] at h
      rw [List.cons_append, List.takeWhile_cons_of_pos hd]
      rcases List.mem_cons.mp h with h1 | h1
      · rw [h1]; simp
      · exact List.mem_cons_of_mem d (ih ws a h1)
    · rw [List.takeWhile_cons_of_neg hd] at h
      exact absurd h (by simp)

/-- Appending trailing whitespace cannot destroy a match of the
punctuation-line pattern. -/
theorem matchExists_ws_right {u ws : Str} (hws : ∀ z ∈ ws, isPySpace z = true)
    (h : matchExists u = true) : matchExists (u ++ ws) = true := by
  cases hd : u.dropWhile isPySpace with
  | nil =>
    rw [matchExists_nilCase hd] at h
    exact Bool.noConfusion h
  | cons c r2 =>
    rw [matchExists_consCase hd] at h
    have hcsp : isPySpace c = false := dropWhile_head_not isPySpace u hd
    have hu : u = u.takeWhile isPySpace ++ (c :: r2) := by
      conv_lhs => rw [← List.takeWhile_append_dropWhile (p := isPySpace) (l := u), hd]
    have hdw : (u ++ ws).dropWhile isPySpace = c :: (r2 ++ ws) := by
      rw [hu, List.append_assoc]
      rw [(takeWhile_append_all isPySpace (u.takeWhile isPySpace) ((c :: r2) ++ ws)
        (fun x hx => List.mem_takeWhile_imp hx)).2]
      rw [List.cons_append]
      exact List.dropWhile_cons_of_neg (by rw [hcsp]; simp)
    rw [matchExists_consCase hdw]
    rw [Bool.and_eq_true] at h
    obtain ⟨hpc, harm⟩ := h
    rw [hpc, Bool.true_and]
    rw [Bool.or_eq_true] at harm
    rcases harm with h1 | h1
    · rw [decide_eq_true_eq] at h1
      have hr2sp : ∀ x ∈ r2, isPySpace x = true := by
        intro x hx
        exact List.dropWhile_eq_nil_iff.mp h1 x hx
      have : (r2 ++ ws).dropWhile isPySpace = [] := by
        rw [(takeWhile_append_all isPySpace r2 ws hr2sp).2]
        exact List.dropWhile_eq_nil_iff.mpr (fun x hx => hws x hx)
      rw [this]
      simp
    · rw [decide_eq_true_eq] at h1
      have : '\n' ∈ (r2 ++ ws).takeWhile isPySpace := mem_takeWhile_append isPySpace r2 ws _ h1
      rw [decide_eq_true this]
      simp

theorem punctClean_strengthen {b : Bool} {x : Str} (h : punctClean b x = true)
    (hme : matchExists x = false) : punctClean true x = true := by
  cases x with
  | nil => rfl
  | cons c t =>
    rw [punctClean_cons_eq, Bool.and_eq_true] at h
    rw [punctClean_cons_eq, Bool.and_eq_true, hme]
    exact ⟨by simp, h.2⟩

theorem punctClean_ws_left : ∀ (ws x : Str), (∀ z ∈ ws, isPySpace z = true) →
    punctClean true (ws ++ x) = true → punctClean true x = true := by
  intro ws
  induction ws with
  | nil => intro x _ h; exact h
  | cons w ws2 ih =>
    intro x hall h
    rw [List.cons_append, punctClean_cons_eq, Bool.and_eq_true] at h
    obtain ⟨h1, h2⟩ := h
    have hwsp := hall w (by simp)
    have hme0 : matchExists (w :: (ws2 ++ x)) = false := by simpa using h1
    rw [matchExists_cons_space hwsp] at hme0
    have hstr : punctClean true (ws2 ++ x) = true := punctClean_strengthen h2 hme0
    exact ih x (fun z hz => hall z (List.mem_cons_of_mem w hz)) hstr

theorem punctClean_ws_right : ∀ (x ws : Str) (ls : Bool), (∀ z ∈ ws, isPySpace z = true) →
    punctClean ls (x ++ ws) = true → punctClean ls x = true := by
  intro x
  induction x with
  | nil => intro ws ls _ _; rfl
  | cons c x2 ih =>
    intro ws ls hall h
    rw [List.cons_append, punctClean_cons_eq, Bool.and_eq_true] at h
    obtain ⟨h1, h2⟩ := h
    rw [punctClean_cons_eq, Bool.and_eq_true]
    refine ⟨?_, ih ws _ hall h2⟩
    by_contra hcon
    have hx : (ls && matchExists (c :: x2)) = true := by
      cases hab : (ls && matchExists (c :: x2)) with
      | true => rfl
      | false => exact absurd (by rw [hab]; rfl) hcon
    rw [Bool.and_eq_true] at hx
    have hme := matchExists_ws_right hall hx.2
    rw [List.cons_append] at hme
    rw [hx.1, hme] at h1
    exact Bool.noConfusion h1

theorem noTripleNl_append_left : ∀ (a x : Str) (r : ℕ), noTripleNl r (a ++ x) = true →
    ∃ r2, noTripleNl r2 x = true := by
  intro a
  induction a with
  | nil => intro x r h; exact ⟨r, h⟩
  | cons c a2 ih =>
    intro x r h
    by_cases hc : c = '\n'
    · subst hc
      rw [List.cons_append, noTripleNl_cons_nl, Bool.and_eq_true] at h
      exact ih x (r + 1) h.2
    · rw [List.cons_append, noTripleNl_cons_other hc] at h
      exact ih x 0 h

theorem noTripleNl_ws_right : ∀ (x ws : Str) (r : ℕ), noTripleNl r (x ++ ws) = true →
    noTripleNl r x = true := by
  intro x
  induction x with
  | nil => intro ws r _; rfl
  | cons c x2 ih =>
    intro ws r h
    by_cases hc : c = '\n'
    · subst hc
      rw [List.cons_append, noTripleNl_cons_nl, Bool.and_eq_true] at h
      rw [noTripleNl_cons_nl, Bool.and_eq_true]
      exact ⟨h.1, ih ws (r + 1) h.2⟩
    · rw [List.cons_append, noTripleNl_cons_other hc] at h
      rw [noTripleNl_cons_other hc]
      exact ih ws 0 h

theorem nextNonWord_ws {ws : Str} (hws : ∀ z ∈ ws, isPySpace z = true) :
    nextNonWord ws = true := by
  cases ws with
  | nil => rfl
  | cons w ws2 =>
    show (! isWordChar w) = true
    rw [space_not_word (hws w (by simp))]
    rfl

/-- Appending trailing whitespace cannot destroy a whole-word
occurrence. -/
theorem matchFromB_ws_right {q u ws : Str} (hws : ∀ z ∈ ws, isPySpace z = true)
    (h : matchFromB q u = true) : matchFromB q (u ++ ws) = true := by
  rw [matchFromB, Bool.and_eq_true, decide_eq_true_eq] at h
  obtain ⟨htake, hnext⟩ := h
  have hlen : q.length ≤ u.length := by
    have := congrArg List.length htake
    rw [lowerStr_length, List.length_take] at this
    omega
  rw [matchFromB, Bool.and_eq_true, decide_eq_true_eq]
  constructor
  · rw [List.take_append_eq_append_take, Nat.sub_eq_zero_of_le hlen, List.take_zero,
      List.append_nil]
    exact htake
  · rw [List.drop_append_eq_append_drop, Nat.sub_eq_zero_of_le hlen, List.drop_zero]
    cases hdq : u.drop q.length with
    | nil =>
      rw [hdq] at hnext
      rw [List.nil_append]
      exact nextNonWord_ws hws
    | cons d r =>
      rw [hdq] at hnext
      rw [List.cons_append]
      exact hnext

theorem noMatch_ws_right (p : Str) : ∀ (v ws : Str) (b : Bool),
    (∀ z ∈ ws, isPySpace z = true) →
    noMatch p b (v ++ ws) = true → noMatch p b v = true := by
  intro v
  induction v with
  | nil => intro ws b _ _; rfl
  | cons c v2 ih =>
    intro ws b hws h
    rw [List.cons_append, noMatch_cons_eq, Bool.and_eq_true] at h
    obtain ⟨h1, h2⟩ := h
    rw [noMatch_cons_eq, Bool.and_eq_true]
    refine ⟨?_, ih ws _ hws h2⟩
    by_contra hcon
    have hx : (decide (b = false) && occAt p (c :: v2)) = true := by
      cases hab : (decide (b = false) && occAt p (c :: v2)) with
      | true => rfl
      | false => exact absurd (by rw [hab]; rfl) hcon
    rw [Bool.and_eq_true] at hx
    have hocc := hx.2
    rw [occAt, Bool.and_eq_true] at hocc
    have hmf := matchFromB_ws_right hws hocc.2
    rw [List.cons_append] at hmf
    have hoccapp : occAt p (c :: (v2 ++ ws)) = true := by
      rw [occAt, Bool.and_eq_true]
      exact ⟨hocc.1, hmf⟩
    rw [hx.1, hoccapp] at h1
    simp at h1

/-- All four fixed-point predicates survive stripping. -/
theorem noMatch_pyStrip {p u : Str} (h : noMatch p false u = true) :
    noMatch p false (pyStrip u) = true := by
  obtain ⟨ws1, ws2, hws1, hws2, hdec⟩ := pyStrip_decomp u
  rw [hdec] at h
  have hcore : noMatch p false (pyStrip u ++ ws2) = true := by
    by_cases hws1e : ws1 = []
    · rw [hws1e, List.nil_append] at h
      exact h
    · have := noMatch_append_tail p ws1 false (pyStrip u ++ ws2) hws1e h
      have hlast : isWordChar (ws1.getLastD 'x') = false :=
        space_not_word (hws1 _ (getLastD_mem ws1 'x' hws1e))
      rwa [hlast] at this
  exact noMatch_ws_right p (pyStrip u) ws2 false hws2 hcore

theorem punctClean_pyStrip {u : Str} (h : punctClean true u = true) :
    punctClean true (pyStrip u) = true := by
  obtain ⟨ws1, ws2, hws1, hws2, hdec⟩ := pyStrip_decomp u
  rw [hdec] at h
  have hcore := punctClean_ws_left ws1 (pyStrip u ++ ws2) hws1 h
  exact punctClean_ws_right (pyStrip u) ws2 true hws2 hcore

theorem noTripleNl_pyStrip {u : Str} (h : noTripleNl 0 u = true) :
    noTripleNl 0 (pyStrip u) = true := by
  obtain ⟨ws1, ws2, hws1, hws2, hdec⟩ := pyStrip_decomp u
  rw [hdec] at h
  obtain ⟨r2, hr2⟩ := noTripleNl_append_left ws1 (pyStrip u ++ ws2) 0 h
  have h0 : noTripleNl 0 (pyStrip u ++ ws2) = true := noTripleNl_mono _ r2 0 (by omega) hr2
  exact noTripleNl_ws_right (pyStrip u) ws2 0 h0

theorem wok_pyStrip {u : Str} (h : WOk u) : WOk (pyStrip u) := by
  obtain ⟨ws1, ws2, hws1, hws2, hdec⟩ := pyStrip_decomp u
  rw [hdec] at h
  exact wok_append_left (wok_append_right h)

/-- The whole corrections chain preserves the fixed points of the three
structural cleanups. -/
theorem applyCorrections_preserved (z : Str) :
    (WOk z → WOk (applyCorrections z)) ∧
    (∀ ls, punctClean ls z = true → punctClean ls (applyCorrections z) = true) ∧
    (∀ run, noTripleNl run z = true → noTripleNl run (applyCorrections z) = true) := by
  have main : ∀ (rest : List (Str × ReplRule)), (∀ pr ∈ rest, pr ∈ corrections) →
      ∀ z2 : Str,
        (WOk z2 → WOk (rest.foldl (fun t q => wordSub q.1 q.2 t) z2)) ∧
        (∀ ls, punctClean ls z2 = true →
          punctClean ls (rest.foldl (fun t q => wordSub q.1 q.2 t) z2) = true) ∧
        (∀ run, noTripleNl run z2 = true →
          noTripleNl run (rest.foldl (fun t q => wordSub q.1 q.2 t) z2) = true) := by
    intro rest
    induction rest with
    | nil => intro _ z2; exact ⟨id, fun _ h => h, fun _ h => h⟩
    | cons q rest ih =>
      intro hsub z2
      have hqmem := hsub q (by simp)
      have hqok := ruleOKb_spec ((List.all_eq_true.mp corrections_rulesOK) q hqmem)
      obtain ⟨hqpne, hqwne, hqww, hqlast, hqhead, hqnl⟩ := hqok
      have hrel := @wordSub_rsub q.1 q.2 hqpne hqlast z2
      have ihz := ih (fun pr hpr => hsub pr (List.mem_cons_of_mem q hpr)) (wordSub q.1 q.2 z2)
      refine ⟨?_, ?_, ?_⟩
      · intro hw
        rw [List.foldl_cons]
        exact ihz.1 (rsub_wok hqpne hqwne hqww hrel hw)
      · intro ls hpc
        rw [List.foldl_cons]
        exact ihz.2.1 ls (rsub_punctClean hqpne hqhead hqlast hqwne hqww hrel ls hpc)
      · intro run hnt
        rw [List.foldl_cons]
        exact ihz.2.2 run (rsub_noTripleNl hqpne hqnl hqwne hqww hrel run hnt)
  exact main corrections (fun pr hpr => hpr) z

/-- C8: `_postprocess_ocr` is idempotent — applying the OCR text cleanup a
second time returns its input unchanged, for every string. -/
theorem postprocess_ocr_idempotent (s : Str) :
    _postprocess_ocr (_postprocess_ocr s) = _postprocess_ocr s := by
  have hpost : ∀ u : Str, _postprocess_ocr u = if u = [] then u
      else pyStrip (applyCorrections (collapseNewlines (removePunctLines (collapseSpaces u)))) :=
    fun u => rfl
  by_cases hs : s = []
  · subst hs
    rfl
  · rw [hpost s, if_neg hs]
    set y := pyStrip (applyCorrections (collapseNewlines (removePunctLines (collapseSpaces s))))
      with hy
    rw [hpost y]
    by_cases hyy : y = []
    · rw [if_pos hyy]
    · rw [if_neg hyy]
      have hz1 : WOk (collapseSpaces s) := wok_collapseGo s false
      have hz2w : WOk (removePunctLines (collapseSpaces s)) :=
        wok_punctGo (collapseSpaces s).length _ le_rfl true hz1
      have hz2p : punctClean true (removePunctLines (collapseSpaces s)) = true :=
        punctClean_punctGo (collapseSpaces s).length _ le_rfl true
      have hz3w : WOk (collapseNewlines (removePunctLines (collapseSpaces s))) :=
        wok_nl3Go _ 0 hz2w
      have hz3p : punctClean true (collapseNewlines (removePunctLines (collapseSpaces s))) =
          true :=
        punctClean_nl3Go _ 0 true hz2p (fun h => absurd h (by omega))
      have hz3n : noTripleNl 0 (collapseNewlines (removePunctLines (collapseSpaces s))) =
          true :=
        noTripleNl_nl3Go _ 0
      obtain ⟨hc1, hc2, hc3⟩ :=
        applyCorrections_preserved (collapseNewlines (removePunctLines (collapseSpaces s)))
      have hz4m :=
        applyCorrections_noMatch (collapseNewlines (removePunctLines (collapseSpaces s)))
      have hyw : WOk y := wok_pyStrip (hc1 hz3w)
      have hyp : punctClean true y = true := punctClean_pyStrip (hc2 true hz3p)
      have hyn : noTripleNl 0 y = true := noTripleNl_pyStrip (hc3 0 hz3n)
      have hym : ∀ pr ∈ corrections, noMatch pr.1 false y = true :=
        fun pr hpr => noMatch_pyStrip (hz4m pr hpr)
      have hW : collapseSpaces y = y := collapseSpaces_id y hyw
      have hP : removePunctLines y = y := punctGo_id y.length y le_rfl true hyp
      have hN : collapseNewlines y = y := nl3Go_id y 0 hyn
      have hC : applyCorrections y = y := applyCorrections_id y hym
      rw [hW, hP, hN, hC, hy]
      exact pyStrip_idem _

end PostIdem

end AssessIQ
